import Mathlib

/-!
# A verification development for the bencode codec

Shallow embedding of the bencode codec (decoder, encoder, reflection-style
type binder and struct metadata cache) and proofs about it.

Conventions of the embedding:
* Go byte strings are modelled as `List Char`, one `Char` per byte; the
  decimal texts, keys and payloads in this codec are plain bytes.
* The input stream (`bufio.Reader`) is the remaining `List Char`; `Peek`
  is pattern matching on the head, `ReadString(delim)` is `readString`,
  `Discard(1)` drops the head.
* Machine integers are `Int`/`Nat` with explicit range checks where the code
  checks them (`strconv.ParseInt` with bitSize 64).
* Fallible code returns `Except BError`; the decoder recursion is fueled
  (`Nat` fuel), and the top-level entry points pass `input.length + 1` fuel,
  which is always sufficient because each recursive call consumes input.
-/

set_option maxRecDepth 40000

namespace Bencode

/-- Byte-wise lexicographic strict order on strings: Go's `<` on `string`. -/
def lexLt : List Char → List Char → Bool
  | _, [] => false
  | [], _ :: _ => true
  | a :: as, b :: bs => if a < b then true else if b < a then false else lexLt as bs

/-- ASCII decimal digit test; `unicode.IsDigit` restricted to single bytes. -/
def isDigitCh (c : Char) : Bool := '0' ≤ c && c ≤ '9'

/-- Numeric value of a decimal digit character. -/
def digitVal (c : Char) : Nat := c.toNat - '0'.toNat

/-- Value of a most-significant-first decimal digit run. -/
def digitsVal (ds : List Char) : Nat := ds.foldl (fun a c => a * 10 + digitVal c) 0

/-- Largest `int64` value, `2^63 - 1`. -/
def int64Max : Int := 9223372036854775807

/-- Smallest `int64` value, `-2^63`. -/
def int64Min : Int := -9223372036854775808

/-- `strconv.ParseInt(s, 10, 64)` (and `strconv.Atoi` on a 64-bit platform):
an optional single `+` or `-` sign, then a nonempty ASCII digit run; the
value must fit in `int64`, otherwise the range error makes the call fail.
Note that `ParseInt` itself accepts redundant leading zeros. -/
def goParseInt64 (s : List Char) : Option Int :=
  match s with
  | [] => none
  | c :: rest =>
    let p : Bool × List Char :=
      if c = '-' then (true, rest) else if c = '+' then (false, rest) else (false, s)
    if p.2 = [] || p.2.any (fun d => !(isDigitCh d)) then none
    else
      let v : Int := if p.1 then -(digitsVal p.2 : Int) else (digitsVal p.2 : Int)
      if v < int64Min || int64Max < v then none else some v

/-- The error categories of the codec (`ErrorType` constants plus the
encoder's error values), one constructor per distinct category. -/
inductive ErrTy
  | syn | synInt | synStrLen | synTok | synEOF
  | stList | stDict | stKeySort | stKeyDup | stValue
  | umType | umOverflow | umToNil | umToInvalid | umMapKey
  | usage | internal
  | umRequired
  | encUnsupported | encMapKey | encWrite
  deriving DecidableEq, Repr

/-- A bencode `*Error` value: its category, the offending field or key
(`FieldName`, empty when not applicable), and the category of the sentinel
error reachable through its `WrappedErr` chain (`none` when it wraps no
sentinel). Messages are not modelled; every claim about error identity is
about category and field name. -/
structure BError where
  ty : ErrTy
  field : List Char := []
  wraps : Option ErrTy := none
  deriving DecidableEq, Repr

/-- The `ErrNullRootValue` sentinel: end of stream before any token. -/
def ErrNullRootValue : BError := { ty := .syn }

/-- The generic decoded value (`any` holding `[]byte`, `int64`, `[]any` or
`map[string]any`). A dictionary is its pairs in decode order, which the
decoder keeps strictly ascending by key. -/
inductive BVal
  | str (s : List Char)
  | int (n : Int)
  | list (items : List BVal)
  | dict (pairs : List (List Char × BVal))
  deriving Repr

/-- `bufio.Reader.ReadString(delim)`: the bytes strictly before the first
`delim` and the rest strictly after it; `none` when `delim` never occurs
(the `io.EOF` case). The Go call returns the delimiter-terminated text and
the decoder immediately slices the delimiter off; the model returns the
already-sliced text. -/
def readString (delim : Char) : List Char → Option (List Char × List Char)
  | [] => none
  | c :: cs =>
    if c = delim then some ([], cs)
    else (readString delim cs).map (fun p => (c :: p.1, p.2))

/-- The leading-zero test of the integer branch:
`(len > 1 && s[0] == '0') || (len > 2 && s[0] == '-' && s[1] == '0')`. -/
def intLeadZero : List Char → Bool
  | '0' :: _ :: _ => true
  | '-' :: '0' :: _ :: _ => true
  | _ => false

/-- The decoder's digit branch (`case unicode.IsDigit(token)`): read the
decimal length up to `:` with `Atoi` (no leading-zero rejection), reject a
negative length, then read exactly that many bytes. `s` still contains the
leading digit. -/
def decodeString (s : List Char) : Except BError (BVal × List Char) :=
  match readString ':' s with
  | none => .error { ty := .synEOF, wraps := some .synEOF }
  | some (lenStr, rest) =>
    match goParseInt64 lenStr with
    | none => .error { ty := .synStrLen }
    | some len =>
      if len < 0 then .error { ty := .synStrLen }
      else if rest.length < len.toNat then .error { ty := .synEOF, wraps := some .synEOF }
      else .ok (.str (rest.take len.toNat), rest.drop len.toNat)

/-- The decoder's `i` branch, after the `i` has been discarded: read up to
`e`, reject an empty run, a leading zero, and `-0`, then `ParseInt` as a
signed 64-bit integer (its failure covers both garbage and overflow). -/
def decodeInteger (s : List Char) : Except BError (BVal × List Char) :=
  match readString 'e' s with
  | none => .error { ty := .synEOF, wraps := some .synEOF }
  | some (numStr, rest) =>
    if numStr = [] then .error { ty := .synInt }
    else if intLeadZero numStr then .error { ty := .synInt }
    else if numStr = ['-', '0'] then .error { ty := .synInt }
    else
      match goParseInt64 numStr with
      | none => .error { ty := .synInt }
      | some n => .ok (.int n, rest)

mutual

/-- `Decoder.decode`: peek one byte and dispatch. Empty input at entry is
the `ErrNullRootValue` condition. Fuel `0` yields the internal-error
category, unreachable from the top-level entry points. -/
def decodeVal : Nat → List Char → Except BError (BVal × List Char)
  | 0, _ => .error { ty := .internal }
  | _ + 1, [] => .error ErrNullRootValue
  | fuel + 1, c :: cs =>
    if isDigitCh c then decodeString (c :: cs)
    else if c = 'i' then decodeInteger cs
    else if c = 'l' then
      match decodeItems fuel cs with
      | .error e => .error e
      | .ok (vs, rest) => .ok (.list vs, rest)
    else if c = 'd' then
      match decodePairs fuel cs true [] [] with
      | .error e => .error e
      | .ok (ps, rest) => .ok (.dict ps, rest)
    else .error { ty := .synTok }

/-- The list loop after `l`: `e` terminates; otherwise decode one item and
continue. A nested `ErrNullRootValue` is translated to the unexpected-EOF
condition, as is end of input before the terminator. -/
def decodeItems : Nat → List Char → Except BError (List BVal × List Char)
  | 0, _ => .error { ty := .internal }
  | _ + 1, [] => .error { ty := .synEOF, wraps := some .synEOF }
  | fuel + 1, c :: cs =>
    if c = 'e' then .ok ([], cs)
    else
      match decodeVal fuel (c :: cs) with
      | .error e =>
        if e = ErrNullRootValue then .error { ty := .synEOF, wraps := some .synEOF }
        else .error e
      | .ok (v, rest) =>
        match decodeItems fuel rest with
        | .error e => .error e
        | .ok (vs, rest2) => .ok (v :: vs, rest2)

/-- The dictionary loop after `d`, carrying the `firstKey` flag, the
previous key and the pairs accepted so far (the `map` plus insertion
order). Key decode, string-kind check, duplicate check against the map,
then the strict-ascending check `prevKey >= strKey` (skipped for the first
key), then value decode; a value error is rewrapped with the key as its
field name. -/
def decodePairs :
    Nat → List Char → Bool → List Char → List (List Char × BVal) →
    Except BError (List (List Char × BVal) × List Char)
  | 0, _, _, _, _ => .error { ty := .internal }
  | _ + 1, [], _, _, _ => .error { ty := .synEOF, wraps := some .synEOF }
  | fuel + 1, c :: cs, firstKey, prevKey, acc =>
    if c = 'e' then .ok (acc, cs)
    else
      match decodeVal fuel (c :: cs) with
      | .error e =>
        if e = ErrNullRootValue then .error { ty := .synEOF, wraps := some .synEOF }
        else .error e
      | .ok (.str k, rest) =>
        if acc.any (fun p => p.1 = k) then
          .error { ty := .stKeyDup, field := k, wraps := some .stKeyDup }
        else if !firstKey && !(lexLt prevKey k) then
          .error { ty := .stKeySort, field := k, wraps := some .stKeySort }
        else
          match decodeVal fuel rest with
          | .error e =>
            if e = ErrNullRootValue then .error { ty := .stValue, field := k, wraps := some .synEOF }
            else .error { ty := e.ty, field := k, wraps := e.wraps }
          | .ok (v, rest2) => decodePairs fuel rest2 false k (acc ++ [(k, v)])
      | .ok (_, _) => .error { ty := .stDict }

end

/-- `Decoder.Decode` for the generic result: decode one item from the
stream (trailing bytes stay in the reader). The fuel `length + 1` is
sufficient for any input. -/
def decodeTop (s : List Char) : Except BError BVal :=
  (decodeVal (s.length + 1) s).map (fun p => p.1)

/-! ## Decimal rendering (`fmt.Fprintf` with the `%d` verb) -/

/-- The decimal digit character of `k % 10`. -/
def decDigit (k : Nat) : Char := Char.ofNat ('0'.toNat + k % 10)

/-- Decimal digits of `n`, most significant first, in front of `acc`.
Structural on the fuel; fuel `n` always suffices since the recursion
divides `n` by ten. -/
def natDecAux : Nat → Nat → List Char → List Char
  | 0, n, acc => decDigit n :: acc
  | fuel + 1, n, acc =>
    if n < 10 then decDigit n :: acc
    else natDecAux fuel (n / 10) (decDigit n :: acc)

/-- The decimal text of a natural number (`%d` on an unsigned integer). -/
def natDec (n : Nat) : List Char := natDecAux n n []

/-- The decimal text of an integer (`%d` on a signed integer): a `-` sign
exactly for negative values, never `-0`, no padding. -/
def intDec (i : Int) : List Char :=
  (if i < 0 then ['-'] else []) ++ natDec i.natAbs

/-- The bencode string encoding `<decimal length>:<raw bytes>`. -/
def encStr (s : List Char) : List Char := natDec s.length ++ ':' :: s

/-! ## Order on keys and pair sorting (`slices.Sort`, `slices.SortFunc`) -/

/-- Go `a <= b` on strings, as a proposition (for `List.insertionSort`). -/
def strLe (a b : List Char) : Prop := lexLt b a = false

instance : DecidableRel strLe := fun a b =>
  inferInstanceAs (Decidable (lexLt b a = false))

/-- Key order on pairs keyed by a string. -/
def pairLe {α : Type} (a b : List Char × α) : Prop := strLe a.1 b.1

instance {α : Type} : DecidableRel (pairLe (α := α)) := fun a b =>
  inferInstanceAs (Decidable (lexLt b.1 a.1 = false))

/-- Sort string-keyed pairs ascending by key. The Go encoder sorts the key
strings (`slices.Sort`) and then emits each key's value; with a `map`'s
necessarily distinct keys this is the same pair order. -/
def sortPairs {α : Type} (ps : List (List Char × α)) : List (List Char × α) :=
  List.insertionSort pairLe ps

/-! ## Struct metadata cache (`parseTagValue`, `getCachedStructInfo`) -/

/-- `unicode.IsSpace` restricted to single bytes (`strings.TrimSpace`). -/
def isSpaceCh (c : Char) : Bool := c = ' ' || (9 ≤ c.toNat && c.toNat ≤ 13)

/-- `strings.TrimSpace`: drop leading and trailing space characters. -/
def trimSpace (s : List Char) : List Char :=
  ((s.dropWhile isSpaceCh).reverse.dropWhile isSpaceCh).reverse

/-- `strings.Cut(s, ",")`: text before the first comma, text after it, and
whether a comma occurred. -/
def cutComma (s : List Char) : List Char × List Char × Bool :=
  match readString ',' s with
  | some (a, b) => (a, b, true)
  | none => (s, [], false)

theorem readString_some_length {d : Char} :
    ∀ {s a b : List Char}, readString d s = some (a, b) → b.length < s.length := by
  intro s
  induction s with
  | nil => intro a b h; simp [readString] at h
  | cons c cs ih =>
    intro a b h
    simp only [readString] at h
    by_cases hc : c = d
    · simp only [if_pos hc, Option.some.injEq, Prod.mk.injEq] at h
      simp [← h.2]
    · simp only [if_neg hc, Option.map_eq_some'] at h
      obtain ⟨p, hp, hq⟩ := h
      have := ih (a := p.1) (b := p.2) (by simpa using hp)
      have hb : b = p.2 := by
        have := congrArg Prod.snd hq
        simpa using this.symm
      subst hb
      simp
      omega

/-- `strings.Split(s, ",")`: the comma-separated segments of `s`.
Structural on the fuel; fuel `s.length` always suffices since
`readString` consumes at least the separator. -/
def splitCommaAux : Nat → List Char → List (List Char)
  | 0, s => [s]
  | fuel + 1, s =>
    match readString ',' s with
    | some (a, b) => a :: splitCommaAux fuel b
    | none => [s]

def splitComma (s : List Char) : List (List Char) := splitCommaAux s.length s

/-- `parseTagValue`: resolve a raw `bencode` tag value to
`(name, required, omitEmpty)`. An empty tag and the `-` tag resolve to an
empty name; otherwise the text before the first comma (trimmed) is the
name and the remaining comma-separated parts may set the flags. -/
def parseTagValue (tagValue : List Char) : List Char × Bool × Bool :=
  if tagValue = [] || tagValue = ['-'] then ([], false, false)
  else
    let c := cutComma tagValue
    let name := trimSpace c.1
    if c.2.2 then
      let parts := splitComma c.2.1
      (name, parts.any (fun p => trimSpace p = "required".toList),
        parts.any (fun p => trimSpace p = "omitempty".toList))
    else (name, false, false)

/-- A struct field as declared in the Go source: name, raw `bencode` tag
value and exportedness (`reflect.StructField`). -/
structure FieldDecl where
  name : List Char
  tag : List Char
  exported : Bool := true
  deriving DecidableEq, Repr

/-- `cachedStructFieldInfo`: the cache's resolved per-field metadata. -/
structure FieldInfo where
  fieldName : List Char
  bencodeTag : List Char
  index : Nat
  required : Bool
  omitEmpty : Bool
  deriving DecidableEq, Repr

/-- The collection loop of `getCachedStructInfo`: skip unexported fields,
resolve each tag, and default an empty resolved name to the field's
declared name. `i` is the reflection field index. -/
def collectFields : List FieldDecl → Nat → List FieldInfo
  | [], _ => []
  | d :: rest, i =>
    if d.exported then
      let pt := parseTagValue d.tag
      { fieldName := d.name
        bencodeTag := if pt.1 = [] then d.name else pt.1
        index := i
        required := pt.2.1
        omitEmpty := pt.2.2 } :: collectFields rest (i + 1)
    else collectFields rest (i + 1)

/-- Wire-key order on cache entries (`strings.Compare` in `SortFunc`). -/
def tagLe (a b : FieldInfo) : Prop := strLe a.bencodeTag b.bencodeTag

instance : DecidableRel tagLe := fun a b =>
  inferInstanceAs (Decidable (lexLt b.bencodeTag a.bencodeTag = false))

/-- `getCachedStructInfo`: the resolved field descriptors of a struct
type, sorted ascending by wire key. Memoization and locking only cache
this pure computation and are not modelled. -/
def structInfoFields (decls : List FieldDecl) : List FieldInfo :=
  List.insertionSort tagLe (collectFields decls 0)

/-- The resolved wire key of one field (its cache entry's `bencodeTag`). -/
def resolvedTag (d : FieldDecl) : List Char :=
  let n := (parseTagValue d.tag).1
  if n = [] then d.name else n

/-! ## Go types and values

`GoType` is the shape of a destination type as the binder dispatches on it
(`reflect.Kind` plus element/field structure); `GoVal` is a typed Go value
as the encoder dispatches on it. Signed integer widths are collapsed to
`int64` and unsigned widths to `uint64` (the widths the decoder and the
tests exercise); `[]byte` keeps its own constructor because reflection
treats it as a slice of `uint8`, which matters to the binder. -/

inductive GoType
  | tint | tuint | tstr | tbytes | tany
  | tslice (elem : GoType)
  | tmap (elem : GoType)
  | tstruct (fields : List (FieldDecl × GoType))
  deriving Repr

inductive GoVal
  | vint (n : Int)
  | vuint (n : Nat)
  | vstr (s : List Char)
  | vbytes (s : List Char)
  | vlist (elem : GoType) (items : List GoVal)
  | vmap (elem : GoType) (pairs : List (List Char × GoVal))
  | vstruct (fields : List (FieldDecl × GoVal))
  | vany (b : BVal)
  | vnil
  deriving Repr

mutual

/-- The Go type of a value (`reflect.TypeOf`); `vany` holds a decoded
generic value in an `any` interface and `vnil` is the nil interface. -/
def typeOf : GoVal → GoType
  | .vint _ => .tint
  | .vuint _ => .tuint
  | .vstr _ => .tstr
  | .vbytes _ => .tbytes
  | .vlist t _ => .tslice t
  | .vmap t _ => .tmap t
  | .vstruct fs => .tstruct (typeOfFields fs)
  | .vany _ => .tany
  | .vnil => .tany

def typeOfFields : List (FieldDecl × GoVal) → List (FieldDecl × GoType)
  | [] => []
  | (d, v) :: rest => (d, typeOf v) :: typeOfFields rest

end

mutual

/-- The zero value of a type (`reflect.Zero`): what a freshly allocated
destination holds before binding. -/
def defaultVal : GoType → GoVal
  | .tint => .vint 0
  | .tuint => .vuint 0
  | .tstr => .vstr []
  | .tbytes => .vbytes []
  | .tslice t => .vlist t []
  | .tmap t => .vmap t []
  | .tstruct fs => .vstruct (defaultFields fs)
  | .tany => .vnil

def defaultFields : List (FieldDecl × GoType) → List (FieldDecl × GoVal)
  | [] => []
  | (d, t) :: rest => (d, defaultVal t) :: defaultFields rest

end

/-! ## Encoder (`Encoder.Encode`, `Marshal`)

The writer is a pure buffer, so the write-error paths of the code cannot
fire in the model; the remaining error paths (unsupported type) are kept.
The code sorts a map's keys and then encodes each value during emission;
encoding is pure, so the model encodes the values first and sorts the
encoded pairs by key — byte-for-byte the same output. -/

/-- Emit already-encoded dictionary pairs: each key as a bencode string,
then the encoded value. -/
def emitEnc (ps : List (List Char × List Char)) : List Char :=
  ps.flatMap (fun p => encStr p.1 ++ p.2)

/-- The struct emission loop of `Encoder.Encode`: for each cache entry in
sorted order, the wire key as a bencode string, then the field's encoding
(looked up by the entry's field index). -/
def emitInfo (info : List FieldInfo) (evs : List (List Char)) : List Char :=
  info.flatMap (fun fi => encStr fi.bencodeTag ++ evs.getD fi.index [])

mutual

/-- Encode a decoded generic value held in an `any` interface: the
encoder's dynamic dispatch sees `[]byte`, `int64`, `[]any` or
`map[string]any`. -/
def encodeB : BVal → List Char
  | .str s => encStr s
  | .int n => 'i' :: intDec n ++ ['e']
  | .list items => 'l' :: encodeBItems items ++ ['e']
  | .dict ps => 'd' :: emitEnc (sortPairs (encodeBPairs ps)) ++ ['e']

def encodeBItems : List BVal → List Char
  | [] => []
  | v :: rest => encodeB v ++ encodeBItems rest

def encodeBPairs : List (List Char × BVal) → List (List Char × List Char)
  | [] => []
  | (k, v) :: rest => (k, encodeB v) :: encodeBPairs rest

end

mutual

/-- `Encoder.Encode`: integers as `i<decimal>e`, strings and byte slices
length-prefixed, slices as `l…e`, string-keyed maps as `d…e` with keys
sorted, structs as `d…e` driven by the sorted metadata cache. The nil
interface has reflection kind `Invalid` and hits the unsupported-type
error. -/
def encodeVal : GoVal → Except BError (List Char)
  | .vint n => .ok ('i' :: intDec n ++ ['e'])
  | .vuint n => .ok ('i' :: natDec n ++ ['e'])
  | .vstr s => .ok (encStr s)
  | .vbytes s => .ok (encStr s)
  | .vlist _ items =>
    match encodeItems items with
    | .error e => .error e
    | .ok bs => .ok ('l' :: bs ++ ['e'])
  | .vmap _ ps =>
    match encodeMapPairs ps with
    | .error e => .error e
    | .ok eps => .ok ('d' :: emitEnc (sortPairs eps) ++ ['e'])
  | .vstruct fs =>
    match encodeFieldVals fs with
    | .error e => .error e
    | .ok evs => .ok ('d' :: emitInfo (structInfoFields (fs.map Prod.fst)) evs ++ ['e'])
  | .vany b => .ok (encodeB b)
  | .vnil => .error { ty := .encUnsupported }

def encodeItems : List GoVal → Except BError (List Char)
  | [] => .ok []
  | v :: rest =>
    match encodeVal v with
    | .error e => .error e
    | .ok bs =>
      match encodeItems rest with
      | .error e => .error e
      | .ok bs2 => .ok (bs ++ bs2)

/-- Encode each map value, keeping its key; a value error gains the key as
its field name when it has none. -/
def encodeMapPairs : List (List Char × GoVal) → Except BError (List (List Char × List Char))
  | [] => .ok []
  | (k, v) :: rest =>
    match encodeVal v with
    | .error e =>
      .error { ty := e.ty, field := if e.field = [] then k else e.field, wraps := e.wraps }
    | .ok bs =>
      match encodeMapPairs rest with
      | .error e => .error e
      | .ok eps => .ok ((k, bs) :: eps)

/-- Encode each struct field's value, in declaration order, indexable by
the cache's field index. Unexported fields are never visited by the
encoder loop, so they contribute an unused placeholder. -/
def encodeFieldVals : List (FieldDecl × GoVal) → Except BError (List (List Char))
  | [] => .ok []
  | (d, v) :: rest =>
    if d.exported then
      match encodeVal v with
      | .error e =>
        .error { ty := e.ty, field := if e.field = [] then resolvedTag d else e.field,
                 wraps := e.wraps }
      | .ok bs =>
        match encodeFieldVals rest with
        | .error e => .error e
        | .ok bss => .ok (bs :: bss)
    else
      match encodeFieldVals rest with
      | .error e => .error e
      | .ok bss => .ok ([] :: bss)

end

/-- `Marshal`: encode into a fresh buffer. -/
def marshal (v : GoVal) : Except BError (List Char) := encodeVal v

/-! ## Type binder (`assignDecodedToValue`, `populateStruct`) -/

/-- Lookup in decoded dictionary pairs (`dictData[tag]`). -/
def assocFind {α : Type} : List (List Char × α) → List Char → Option α
  | [], _ => none
  | (k, v) :: rest, key => if k = key then some v else assocFind rest key

theorem assocFind_sizeOf {α : Type} [SizeOf α] :
    ∀ {ps : List (List Char × α)} {k : List Char} {v : α},
      assocFind ps k = some v → sizeOf v < sizeOf ps := by
  intro ps
  induction ps with
  | nil => intro k v h; simp [assocFind] at h
  | cons p rest ih =>
    intro k v h
    obtain ⟨k2, v2⟩ := p
    simp only [assocFind] at h
    by_cases hk : k2 = k
    · simp only [if_pos hk, Option.some.injEq] at h
      subst h
      simp only [List.cons.sizeOf_spec, Prod.mk.sizeOf_spec]
      omega
    · simp only [if_neg hk] at h
      have := ih h
      simp only [List.cons.sizeOf_spec]
      omega

mutual

/-- `assignDecodedToValue`: dispatch on the destination kind. String
destinations need `[]byte` data; signed destinations need `int64` data
(which always fits the modelled 64-bit width); unsigned destinations
additionally reject negative data; slice destinations need `[]any` data —
in particular a `[]byte` destination is a slice of `uint8` to reflection
and never matches the `[]byte` data a decoded string holds; map and
struct destinations need `map[string]any` data; an `any` destination
stores the decoded data itself. -/
def bindVal : GoType → BVal → Except BError GoVal
  | .tstr, b =>
    match b with
    | .str s => .ok (.vstr s)
    | _ => .error { ty := .umType }
  | .tint, b =>
    match b with
    | .int n => .ok (.vint n)
    | _ => .error { ty := .umType }
  | .tuint, b =>
    match b with
    | .int n => if n < 0 then .error { ty := .umType } else .ok (.vuint n.toNat)
    | _ => .error { ty := .umType }
  | .tbytes, b =>
    match b with
    | .list items =>
      match bindBytes items 0 with
      | .error e => .error e
      | .ok s => .ok (.vbytes s)
    | _ => .error { ty := .umType }
  | .tslice t, b =>
    match b with
    | .list items =>
      match bindList t items 0 with
      | .error e => .error e
      | .ok gs => .ok (.vlist t gs)
    | _ => .error { ty := .umType }
  | .tmap t, b =>
    match b with
    | .dict ps =>
      match bindMapPairs t ps with
      | .error e => .error e
      | .ok gps => .ok (.vmap t gps)
    | _ => .error { ty := .umType }
  | .tstruct flds, b =>
    match b with
    | .dict ps =>
      match populateStruct flds ps with
      | .error e => .error e
      | .ok gfs => .ok (.vstruct gfs)
    | _ => .error { ty := .umType }
  | .tany, b => .ok (.vany b)
termination_by t b => (sizeOf b, 0)
decreasing_by all_goals (simp_wf; omega)

/-- The slice-element loop: bind each element into a fresh slot; an
element error is rewrapped with the element index as its field name. -/
def bindList : GoType → List BVal → Nat → Except BError (List GoVal)
  | _, [], _ => .ok []
  | t, b :: rest, i =>
    match bindVal t b with
    | .error e => .error { ty := e.ty, field := natDec i, wraps := e.wraps }
    | .ok g =>
      match bindList t rest (i + 1) with
      | .error e => .error e
      | .ok gs => .ok (g :: gs)
termination_by t items i => (sizeOf items, 0)
decreasing_by all_goals (simp_wf; omega)

/-- The slice-element loop specialised to a `[]byte` destination: each
element slot is a `uint8`, so data must be `int64` within `0..255`
(negative data is a type error, larger data an overflow error). -/
def bindBytes : List BVal → Nat → Except BError (List Char)
  | [], _ => .ok []
  | b :: rest, i =>
    match b with
    | .int n =>
      if n < 0 then .error { ty := .umType, field := natDec i }
      else if 255 < n then .error { ty := .umOverflow, field := natDec i }
      else
        match bindBytes rest (i + 1) with
        | .error e => .error e
        | .ok s => .ok (Char.ofNat n.toNat :: s)
    | _ => .error { ty := .umType, field := natDec i }
termination_by items i => (sizeOf items, 0)
decreasing_by all_goals (simp_wf; omega)

/-- The map-value loop: bind each value independently; a value error is
rewrapped with its key as the field name. -/
def bindMapPairs : GoType → List (List Char × BVal) → Except BError (List (List Char × GoVal))
  | _, [] => .ok []
  | t, (k, b) :: rest =>
    match bindVal t b with
    | .error e => .error { ty := e.ty, field := k, wraps := e.wraps }
    | .ok g =>
      match bindMapPairs t rest with
      | .error e => .error e
      | .ok gps => .ok ((k, g) :: gps)
termination_by t ps => (sizeOf ps, 0)
decreasing_by all_goals (simp_wf; omega)

/-- `populateStruct` as in the source: walk the fields in declaration
order; skip unsettable (unexported) fields and fields with an empty raw
tag; look the raw tag value up in the dictionary and skip absent keys;
bind present values, rewrapping an error with the tag as field name. A
skipped field keeps the fresh destination's zero value. -/
def populateStruct :
    List (FieldDecl × GoType) → List (List Char × BVal) → Except BError (List (FieldDecl × GoVal))
  | [], _ => .ok []
  | (d, t) :: rest, ps =>
    if !d.exported || d.tag = [] then
      match populateStruct rest ps with
      | .error e => .error e
      | .ok gfs => .ok ((d, defaultVal t) :: gfs)
    else
      match h : assocFind ps d.tag with
      | none =>
        match populateStruct rest ps with
        | .error e => .error e
        | .ok gfs => .ok ((d, defaultVal t) :: gfs)
      | some bv =>
        match bindVal t bv with
        | .error e => .error { ty := e.ty, field := d.tag, wraps := e.wraps }
        | .ok gv =>
          match populateStruct rest ps with
          | .error e => .error e
          | .ok gfs => .ok ((d, gv) :: gfs)
termination_by flds ps => (sizeOf ps, 1 + sizeOf flds)
decreasing_by
  all_goals simp_wf
  all_goals first
    | omega
    | (have h9 := assocFind_sizeOf h; omega)

end

/-- `Decoder.Decode(v)` and `Unmarshal(data, v)` for a typed destination:
decode one generic value, then bind it into a fresh destination of the
given type (trailing input is not an error). -/
def unmarshalTyped (t : GoType) (s : List Char) : Except BError GoVal :=
  match decodeVal (s.length + 1) s with
  | .error e => .error e
  | .ok (bv, _) => bindVal t bv

/-- Replace the value of the field at a given index. -/
def setVal : List (FieldDecl × GoVal) → Nat → GoVal → List (FieldDecl × GoVal)
  | [], _, _ => []
  | (d, _) :: rest, 0, nv => (d, nv) :: rest
  | p :: rest, n + 1, nv => p :: setVal rest n nv

/-- One step of the spec's required-aware struct binding: walk the cache
descriptors in their sorted order over a default-initialised field list,
binding present keys and failing on an absent `required` key. -/
def populateSpecLoop (flds : List (FieldDecl × GoType)) (ps : List (List Char × BVal)) :
    List FieldInfo → List (FieldDecl × GoVal) → Except BError (List (FieldDecl × GoVal))
  | [], acc => .ok acc
  | fi :: rest, acc =>
    match assocFind ps fi.bencodeTag with
    | none =>
      if fi.required then .error { ty := .umRequired, field := fi.bencodeTag }
      else populateSpecLoop flds ps rest acc
    | some bv =>
      match flds[fi.index]? with
      | none => populateSpecLoop flds ps rest acc
      | some (_, t) =>
        match bindVal t bv with
        | .error e => .error { ty := e.ty, field := fi.bencodeTag, wraps := e.wraps }
        | .ok gv => populateSpecLoop flds ps rest (setVal acc fi.index gv)

/-- Modelled from the spec: the `required`-aware struct binder of §4.2.
The binder that honours the `required` tag flag (failing with the
required-field-missing category and the missing wire key when a required
key is absent, leaving non-required absent fields at their defaults) is
not under `src/` — only its tests (`TestUnmarshalRequiredTag`, via the
`ErrUnmarshalRequiredFieldMissing` category) and the cache that computes
the `required` flag (`part_004`) are. Per the spec: for each field
descriptor with a matching wire key present, bind recursively; if a
`required` field's key is absent, fail identifying that key; if a
non-required field's key is absent, leave the field at its default. -/
def populateStructSpec (flds : List (FieldDecl × GoType)) (ps : List (List Char × BVal)) :
    Except BError (List (FieldDecl × GoVal)) :=
  populateSpecLoop flds ps (structInfoFields (flds.map Prod.fst)) (defaultFields flds)

/-! ## The round-trippable fragment of `GoVal` (C1) -/

/-- A raw struct tag that resolves to itself: nonempty, not the skip
marker `-`, no comma (so no flag parts), no surrounding space, and short
enough that its decimal length fits `int64` (as any Go string's does). -/
def plainTag (tag : List Char) : Prop :=
  tag ≠ [] ∧ tag ≠ ['-'] ∧ (∀ c ∈ tag, c ≠ ',') ∧ trimSpace tag = tag ∧
    (tag.length : Int) ≤ int64Max

/-- The values that survive a `Marshal`/`Unmarshal` round trip into a
destination of their own type: `int64`-ranged integers, strings of
representable length, homogeneous slices, maps presented in strictly
ascending key order (a Go map is unordered, so this picks the decode-order
representative), and structs of exported fields with plain distinct tags.
`[]byte` values are excluded (a decoded string never binds into a
`[]uint8` slice), as are `any` holes and nil interfaces. -/
inductive Trippable : GoVal → Prop
  | vint (n : Int) : int64Min ≤ n → n ≤ int64Max → Trippable (.vint n)
  | vuint (n : Nat) : (n : Int) ≤ int64Max → Trippable (.vuint n)
  | vstr (s : List Char) : (s.length : Int) ≤ int64Max → Trippable (.vstr s)
  | vlist (t : GoType) (items : List GoVal) :
      (∀ v ∈ items, typeOf v = t) →
      (∀ v ∈ items, Trippable v) → Trippable (.vlist t items)
  | vmap (t : GoType) (ps : List (List Char × GoVal)) :
      ps.Pairwise (fun a b => lexLt a.1 b.1 = true) →
      (∀ p ∈ ps, (p.1.length : Int) ≤ int64Max) →
      (∀ p ∈ ps, typeOf p.2 = t) →
      (∀ p ∈ ps, Trippable p.2) → Trippable (.vmap t ps)
  | vstruct (fs : List (FieldDecl × GoVal)) :
      (∀ f ∈ fs, f.1.exported = true) →
      (∀ f ∈ fs, plainTag f.1.tag) →
      (fs.map (fun f => f.1.tag)).Nodup →
      (∀ f ∈ fs, Trippable f.2) → Trippable (.vstruct fs)

theorem sizeOf_of_getElem? {α : Type} [SizeOf α] {l : List α} {i : Nat} {a : α}
    (h : l[i]? = some a) : sizeOf a < sizeOf l :=
  List.sizeOf_lt_of_mem (List.getElem?_mem h)

mutual

/-- The generic (`any`) value the decoder produces for the encoder's
rendering of a typed value: integers widen to `int64`, strings stay byte
strings, lists stay lists, and maps and structs decode to their
dictionary pairs in emitted (sorted wire-key) order. -/
def gval : GoVal → BVal
  | .vint n => .int n
  | .vuint n => .int (n : Int)
  | .vstr s => .str s
  | .vbytes s => .str s
  | .vlist _ items => .list (gvalItems items)
  | .vmap _ ps => .dict (gvalPairs ps)
  | .vstruct fs => .dict (gvalStructPairs fs (structInfoFields (fs.map Prod.fst)))
  | .vany b => b
  | .vnil => .int 0
termination_by v => (sizeOf v, 0)
decreasing_by all_goals (simp_wf; omega)

def gvalItems : List GoVal → List BVal
  | [] => []
  | v :: rest => gval v :: gvalItems rest
termination_by items => (sizeOf items, 0)
decreasing_by all_goals (simp_wf; omega)

def gvalPairs : List (List Char × GoVal) → List (List Char × BVal)
  | [] => []
  | (k, v) :: rest => (k, gval v) :: gvalPairs rest
termination_by ps => (sizeOf ps, 0)
decreasing_by all_goals (simp_wf; omega)

/-- The dictionary pairs a struct's emission decodes to: one pair per
cache entry in cache order, the wire key with the generic image of the
field the entry's index selects. -/
def gvalStructPairs (fs : List (FieldDecl × GoVal)) : List FieldInfo → List (List Char × BVal)
  | [] => []
  | fi :: rest =>
    (fi.bencodeTag,
      match h : fs[fi.index]? with
      | some f => gval f.2
      | none => .int 0) :: gvalStructPairs fs rest
termination_by info => (sizeOf fs, 1 + sizeOf info)
decreasing_by
  all_goals simp_wf
  all_goals first
    | omega
    | (obtain ⟨d1, v1⟩ := f
       have := sizeOf_of_getElem? h
       simp only [Prod.mk.sizeOf_spec] at this ⊢
       omega)

end

/-- The struct emission seen as key/value pairs of typed values: the wire
key with the field value the entry's index selects. -/
def structVals (fs : List (FieldDecl × GoVal)) : List FieldInfo → List (List Char × GoVal)
  | [] => []
  | fi :: rest =>
    (fi.bencodeTag,
      match fs[fi.index]? with
      | some f => f.2
      | none => .vnil) :: structVals fs rest

/-- What the cache-collection loop produces when every tag is plain and
every field exported: one entry per field in declaration order, the raw
tag as wire key. -/
def plainInfos : List FieldDecl → Nat → List FieldInfo
  | [], _ => []
  | d :: rest, i =>
    { fieldName := d.name, bencodeTag := d.tag, index := i,
      required := false, omitEmpty := false } :: plainInfos rest (i + 1)

/-! ## Properties of the byte-wise string order -/

theorem lexLt_irrefl : ∀ a : List Char, lexLt a a = false
  | [] => rfl
  | c :: cs => by simp [lexLt, lexLt_irrefl cs]

theorem lexLt_asymm : ∀ {a b : List Char}, lexLt a b = true → lexLt b a = false
  | [], [], h => by simp [lexLt] at h
  | [], _ :: _, _ => by simp [lexLt]
  | _ :: _, [], h => by simp [lexLt] at h
  | a :: as, b :: bs, h => by
    simp only [lexLt] at h ⊢
    rcases lt_trichotomy a b with hab | hab | hab
    · simp [hab, not_lt_of_lt hab]
    · subst hab
      simp only [lt_irrefl, if_false] at h ⊢
      exact lexLt_asymm h
    · simp [hab, not_lt_of_lt hab] at h

theorem lexLt_trans :
    ∀ {a b c : List Char}, lexLt a b = true → lexLt b c = true → lexLt a c = true
  | _, _, [], _, h2 => by simp [lexLt] at h2
  | _, [], _ :: _, h1, _ => by simp [lexLt] at h1
  | [], _ :: _, _ :: _, _, _ => by simp [lexLt]
  | a :: as, b :: bs, c :: cs, h1, h2 => by
    simp only [lexLt] at h1 h2 ⊢
    rcases lt_trichotomy a b with hab | hab | hab
    · rcases lt_trichotomy b c with hbc | hbc | hbc
      · simp [lt_trans hab hbc]
      · subst hbc; simp [hab]
      · simp [hbc, not_lt_of_lt hbc] at h2
    · subst hab
      rcases lt_trichotomy a c with hac | hac | hac
      · simp [hac]
      · subst hac
        simp only [lt_irrefl, if_false] at h1 h2 ⊢
        exact lexLt_trans h1 h2
      · simp [hac, not_lt_of_lt hac] at h2
    · simp [hab, not_lt_of_lt hab] at h1

theorem lexLt_eq_of_not :
    ∀ {a b : List Char}, lexLt a b = false → lexLt b a = false → a = b
  | [], [], _, _ => rfl
  | [], _ :: _, h1, _ => by simp [lexLt] at h1
  | _ :: _, [], _, h2 => by simp [lexLt] at h2
  | a :: as, b :: bs, h1, h2 => by
    simp only [lexLt] at h1 h2
    rcases lt_trichotomy a b with hab | hab | hab
    · simp [hab] at h1
    · subst hab
      simp only [lt_irrefl, if_false] at h1 h2
      rw [lexLt_eq_of_not h1 h2]
    · simp [hab] at h2

theorem lexLt_ne {a b : List Char} (h : lexLt a b = true) : a ≠ b := by
  intro hab
  subst hab
  rw [lexLt_irrefl] at h
  exact Bool.false_ne_true h

instance : IsTotal (List Char) strLe where
  total a b := by
    unfold strLe
    rcases hb : lexLt b a with _ | _
    · exact Or.inl rfl
    · exact Or.inr (lexLt_asymm hb)

instance : IsTrans (List Char) strLe where
  trans a b c h1 h2 := by
    unfold strLe at h1 h2 ⊢
    rcases hc : lexLt c a with _ | _
    · rfl
    · exfalso
      rcases hbc : lexLt b c with _ | _
      · have hedge : b = c := lexLt_eq_of_not hbc h2
        rw [← hedge] at hc
        rw [hc] at h1
        exact Bool.noConfusion h1
      · have hba := lexLt_trans hbc hc
        rw [h1] at hba
        exact Bool.noConfusion hba

instance {α : Type} : IsTotal (List Char × α) (pairLe (α := α)) where
  total a b := IsTotal.total (r := strLe) a.1 b.1

instance {α : Type} : IsTrans (List Char × α) (pairLe (α := α)) where
  trans a b c h1 h2 := IsTrans.trans (r := strLe) a.1 b.1 c.1 h1 h2

instance : IsTotal FieldInfo tagLe where
  total a b := IsTotal.total (r := strLe) a.bencodeTag b.bencodeTag

instance : IsTrans FieldInfo tagLe where
  trans a b c h1 h2 := IsTrans.trans (r := strLe) a.bencodeTag b.bencodeTag c.bencodeTag h1 h2

/-- The struct metadata cache is sorted ascending by wire key. -/
theorem structInfoFields_sorted (decls : List FieldDecl) :
    (structInfoFields decls).Sorted tagLe :=
  List.sorted_insertionSort tagLe (collectFields decls 0)

/-- Sorting pairs by key sorts them. -/
theorem sortPairs_sorted {α : Type} (ps : List (List Char × α)) :
    (sortPairs ps).Sorted (pairLe (α := α)) :=
  List.sorted_insertionSort pairLe ps

/-- Membership in the collection loop of the metadata cache: an exported
field with an empty raw tag yields a cache entry keyed by its name. -/
theorem collectFields_mem_of_untagged :
    ∀ (decls : List FieldDecl) (i : Nat) (d : FieldDecl),
      d ∈ decls → d.exported = true → d.tag = [] →
      ∃ fi ∈ collectFields decls i, fi.fieldName = d.name ∧ fi.bencodeTag = d.name := by
  intro decls
  induction decls with
  | nil => intro i d hd; simp at hd
  | cons d0 rest ih =>
    intro i d hd hexp htag
    rcases List.mem_cons.mp hd with hd0 | hdrest
    · subst hd0
      refine ⟨{ fieldName := d.name, bencodeTag := d.name, index := i,
                required := false, omitEmpty := false }, ?_, rfl, rfl⟩
      simp [collectFields, hexp, htag, parseTagValue]
    · obtain ⟨fi, hfi, hn, hb⟩ := ih (i + 1) d hdrest hexp htag
      by_cases he : d0.exported
      · refine ⟨fi, ?_, hn, hb⟩
        simp only [collectFields, if_pos he]
        exact List.mem_cons_of_mem _ hfi
      · refine ⟨fi, ?_, hn, hb⟩
        simpa [collectFields, he] using hfi

/-- C8: an exported struct field with no `bencode` tag is not skipped by
the metadata cache: it gets a descriptor whose wire key is the field's
declared name. -/
theorem c8_untagged_field_uses_declared_name :
    ∀ (decls : List FieldDecl) (d : FieldDecl),
      d ∈ decls → d.exported = true → d.tag = [] →
      ∃ fi ∈ structInfoFields decls, fi.fieldName = d.name ∧ fi.bencodeTag = d.name := by
  intro decls d hd hexp htag
  obtain ⟨fi, hfi, hn, hb⟩ := collectFields_mem_of_untagged decls 0 d hd hexp htag
  exact ⟨fi, (List.mem_insertionSort tagLe).mpr hfi, hn, hb⟩

/-- C8 witness: the untagged exported field `Value` of the no-tag test
struct is cached under the wire key `Value`. -/
theorem c8_untagged_field_uses_declared_name_witness :
    ∃ fi ∈ structInfoFields
        [{ name := "Name".toList, tag := "name".toList },
         { name := "Value".toList, tag := [] }],
      fi.fieldName = "Value".toList ∧ fi.bencodeTag = "Value".toList :=
  c8_untagged_field_uses_declared_name
    [{ name := "Name".toList, tag := "name".toList },
     { name := "Value".toList, tag := [] }]
    { name := "Value".toList, tag := [] }
    (by simp) rfl rfl

/-- C7: dictionary emission order. The struct emission loop walks the
metadata cache, whose wire keys are pairwise ascending regardless of the
declaration order of the fields; map emission sorts the pairs by key; and
concretely a struct declaring `zebra` before `apple` still emits the
`apple` pair first. -/
theorem c7_encode_emits_pairs_in_key_order :
    (∀ decls : List FieldDecl,
      List.Pairwise strLe ((structInfoFields decls).map (fun fi => fi.bencodeTag)))
    ∧ (∀ (α : Type) (ps : List (List Char × α)),
      List.Pairwise strLe ((sortPairs ps).map Prod.fst))
    ∧ encodeVal (.vstruct
        [({ name := "Z".toList, tag := "zebra".toList }, .vstr ("z".toList)),
         ({ name := "A".toList, tag := "apple".toList }, .vstr ("a".toList))]) =
      .ok ("d5:apple1:a5:zebra1:ze".toList) := by
  refine ⟨?_, ?_, ?_⟩
  · intro decls
    exact List.Pairwise.map _ (fun a b hab => hab) (structInfoFields_sorted decls)
  · intro α ps
    exact List.Pairwise.map _ (fun a b hab => hab) (sortPairs_sorted ps)
  · simp [encodeVal, encodeFieldVals, structInfoFields, collectFields, parseTagValue, cutComma,
      readString, trimSpace, isSpaceCh, splitComma, splitCommaAux, resolvedTag, tagLe, strLe,
      lexLt, emitInfo, encStr, natDec, natDecAux, decDigit, intDec]

/-- C5 counterexample: encoding a record whose `required` field holds its
zero value succeeds and emits the field (here `i0e`), and a non-required
zero-valued field is emitted rather than omitted (the code's own
`TestEncodeZeroValue` expectation). -/
theorem c5_counterexample_zero_required_field_emitted :
    encodeVal (.vstruct
      [({ name := "Value".toList, tag := "value,required".toList }, .vint 0)]) =
      .ok ("d5:valuei0ee".toList)
    ∧ encodeVal (.vstruct
      [({ name := "Value".toList, tag := "value".toList }, .vint 0)]) =
      .ok ("d5:valuei0ee".toList) := by
  constructor
  · simp [encodeVal, encodeFieldVals, structInfoFields, collectFields, parseTagValue, cutComma,
      readString, trimSpace, isSpaceCh, splitComma, splitCommaAux, resolvedTag, tagLe, strLe,
      lexLt, emitInfo, encStr, natDec, natDecAux, decDigit, intDec]
  · simp [encodeVal, encodeFieldVals, structInfoFields, collectFields, parseTagValue, cutComma,
      readString, trimSpace, isSpaceCh, splitComma, splitCommaAux, resolvedTag, tagLe, strLe,
      lexLt, emitInfo, encStr, natDec, natDecAux, decDigit, intDec]

/-- C5 (amended): the struct encoder performs no zero-value or `required`
check at all: whenever the field values themselves encode, the record
encodes successfully, and the emission contains every cache entry's wire
key followed by that field's encoding — zero-valued fields included,
`required` or not. -/
theorem c5_amended_every_cached_field_emitted :
    ∀ (fs : List (FieldDecl × GoVal)) (evs : List (List Char)),
      encodeFieldVals fs = .ok evs →
      encodeVal (.vstruct fs) =
        .ok ('d' :: (emitInfo (structInfoFields (fs.map Prod.fst)) evs ++ ['e']))
      ∧ ∀ fi ∈ structInfoFields (fs.map Prod.fst),
          ∃ pre post, emitInfo (structInfoFields (fs.map Prod.fst)) evs =
            pre ++ encStr fi.bencodeTag ++ evs.getD fi.index [] ++ post := by
  intro fs evs h
  constructor
  · simp [encodeVal, h]
  · intro fi hfi
    obtain ⟨l1, l2, hsplit⟩ := List.append_of_mem hfi
    refine ⟨emitInfo l1 evs, emitInfo l2 evs, ?_⟩
    rw [hsplit]
    simp [emitInfo, List.append_assoc]

/-! ## Reading up to a delimiter -/

/-- `ReadString` on input whose first delimiter occurrence is explicit:
the text before it is returned and the input is positioned after it. -/
theorem readString_no_delim {d : Char} :
    ∀ {s : List Char} (rest : List Char), (∀ c ∈ s, c ≠ d) →
      readString d (s ++ d :: rest) = some (s, rest) := by
  intro s
  induction s with
  | nil => intro rest _; simp [readString]
  | cons c cs ih =>
    intro rest h
    have hc : c ≠ d := h c (by simp)
    simp only [List.cons_append, readString, if_neg hc, List.append_eq]
    rw [ih rest (fun x hx => h x (by simp [hx]))]
    rfl

/-- `ParseInt` on a nonempty decimal digit run whose value fits `int64`:
the run's value. -/
theorem goParseInt64_digits {ds : List Char} (hne : ds ≠ [])
    (hdig : ∀ c ∈ ds, isDigitCh c = true) (hle : (digitsVal ds : Int) ≤ int64Max) :
    goParseInt64 ds = some ((digitsVal ds : Int)) := by
  match ds, hne with
  | c :: cs, _ =>
    have hc : isDigitCh c = true := hdig c (by simp)
    have hcm : c ≠ '-' := by
      intro h; subst h; simp [isDigitCh] at hc
    have hcp : c ≠ '+' := by
      intro h; subst h; simp [isDigitCh] at hc
    simp only [goParseInt64, if_neg hcm, if_neg hcp]
    have hall : ((c :: cs).any fun d => !isDigitCh d) = false := by
      simp only [List.any_eq_false]
      intro x hx
      simp [hdig x hx]
    simp only [hall]
    have hge : (0 : Int) ≤ (digitsVal (c :: cs) : Int) := by positivity
    have hmin : ¬ ((digitsVal (c :: cs) : Int) < int64Min) := by
      unfold int64Min; omega
    have hmax : ¬ (int64Max < (digitsVal (c :: cs) : Int)) := by omega
    simp [hmin, hmax]

/-- C2 counterexample: `04:spam` (leading zero in the length) is decoded
as the 4-byte string `spam`, not rejected. -/
theorem c2_counterexample_leading_zero_length_accepted :
    decodeTop ("04:spam".toList) = .ok (.str ("spam".toList)) := rfl

/-- C2 (amended): for input whose first byte is a digit, the decoder
reads the decimal length up to `:` with `Atoi`, which accepts leading
zeros; any non-negative representable digit run is accepted as a length
(so `04:spam` decodes as the 4-byte string), and the declared number of
bytes is then read exactly, with an EOF error when fewer are available. -/
theorem c2_amended_length_parsed_by_atoi :
    ∀ (ds rest : List Char) (fuel : Nat),
      ds ≠ [] → (∀ c ∈ ds, isDigitCh c = true) → (digitsVal ds : Int) ≤ int64Max →
      decodeVal (fuel + 1) (ds ++ ':' :: rest) =
        if rest.length < digitsVal ds then .error { ty := .synEOF, wraps := some .synEOF }
        else .ok (.str (rest.take (digitsVal ds)), rest.drop (digitsVal ds)) := by
  intro ds rest fuel hne hdig hle
  match ds, hne with
  | c :: cs, _ =>
    have hc : isDigitCh c = true := hdig c (by simp)
    simp only [List.cons_append, decodeVal, hc, if_pos]
    rw [show c :: (cs ++ ':' :: rest) = (c :: cs) ++ ':' :: rest from rfl]
    have hnd : ∀ x ∈ c :: cs, x ≠ ':' := by
      intro x hx h
      subst h
      simpa [isDigitCh] using hdig _ hx
    have h1 := readString_no_delim (d := ':') rest hnd
    have h2 := @goParseInt64_digits (c :: cs) (by simp) hdig hle
    have hge : ¬ ((digitsVal (c :: cs) : Int) < 0) := by omega
    simp only [decodeString, h1, h2, if_neg hge, Int.toNat_natCast]

/-- C2 witness: the amended statement at the leading-zero length `04`. -/
theorem c2_amended_length_parsed_by_atoi_witness :
    decodeVal 8 ("04".toList ++ ':' :: "spam".toList) =
      if ("spam".toList).length < digitsVal ("04".toList) then
        .error { ty := .synEOF, wraps := some .synEOF }
      else .ok (.str (("spam".toList).take (digitsVal ("04".toList))),
        ("spam".toList).drop (digitsVal ("04".toList))) :=
  c2_amended_length_parsed_by_atoi ("04".toList) ("spam".toList) 7
    (by simp) (by decide) (by decide)

/-- Dispatch of the `i` token: not a digit, so the decoder discards the
`i` and enters the integer branch. -/
theorem decodeVal_int_dispatch (fuel : Nat) (cs : List Char) :
    decodeVal (fuel + 1) ('i' :: cs) = decodeInteger cs := by
  have h : isDigitCh 'i' = false := by decide
  simp [decodeVal, h]

/-- The integer branch on input whose digit run is delimited by the first
`e`: the canonical-form checks, then `ParseInt`. -/
theorem decodeInteger_char (s rest : List Char) (h : ∀ c ∈ s, c ≠ 'e') :
    decodeInteger (s ++ 'e' :: rest) =
      (if s = [] then .error { ty := .synInt }
       else if intLeadZero s then .error { ty := .synInt }
       else if s = ['-', '0'] then .error { ty := .synInt }
       else
         match goParseInt64 s with
         | none => .error { ty := .synInt }
         | some n => .ok (.int n, rest)) := by
  simp only [decodeInteger, readString_no_delim rest h]

/-- C3: for input `i<run>e` (the run delimited by the first `e`), the
decoder returns an integer-syntax error exactly when the run is empty,
has a leading zero other than the bare `0`, is `-0`, or fails 64-bit
`ParseInt` (which covers garbage and out-of-range values); otherwise it
returns the parsed signed 64-bit value. Concretely, `2^63` overflows and
is an integer-syntax error. -/
theorem c3_integer_branch_characterisation :
    (∀ (s rest : List Char) (fuel : Nat), (∀ c ∈ s, c ≠ 'e') →
      ((∃ e, decodeVal (fuel + 1) ('i' :: (s ++ 'e' :: rest)) = .error e ∧ e.ty = .synInt)
        ↔ (s = [] ∨ intLeadZero s = true ∨ s = ['-', '0'] ∨ goParseInt64 s = none))
      ∧ (∀ n : Int, goParseInt64 s = some n →
          s ≠ [] → intLeadZero s = false → s ≠ ['-', '0'] →
          decodeVal (fuel + 1) ('i' :: (s ++ 'e' :: rest)) = .ok (.int n, rest)))
    ∧ decodeTop ("i9223372036854775808e".toList) = .error { ty := .synInt } := by
  refine ⟨?_, rfl⟩
  intro s rest fuel h
  rw [decodeVal_int_dispatch, decodeInteger_char s rest h]
  constructor
  · constructor
    · intro ⟨e, he, hty⟩
      by_cases h1 : s = []
      · exact Or.inl h1
      by_cases h2 : intLeadZero s
      · exact Or.inr (Or.inl h2)
      by_cases h3 : s = ['-', '0']
      · exact Or.inr (Or.inr (Or.inl h3))
      refine Or.inr (Or.inr (Or.inr ?_))
      simp only [if_neg h1, if_neg h2, if_neg h3] at he
      rcases hp : goParseInt64 s with _ | n
      · rfl
      · rw [hp] at he
        exact absurd he (by simp)
    · intro hcase
      rcases hcase with h1 | h2 | h3 | h4
      · exact ⟨{ ty := .synInt }, by simp [h1], rfl⟩
      · exact ⟨{ ty := .synInt }, by by_cases h1 : s = [] <;> simp [h1, h2], rfl⟩
      · refine ⟨{ ty := .synInt }, ?_, rfl⟩
        subst h3
        simp [intLeadZero]
      · refine ⟨{ ty := .synInt }, ?_, rfl⟩
        by_cases h1 : s = []
        · simp [h1]
        by_cases h2 : intLeadZero s
        · simp [h1, h2]
        by_cases h3 : s = ['-', '0']
        · simp [h1, h2, h3]
        · simp [h1, h2, h3, h4]
  · intro n hp h1 h2 h3
    simp [h1, h2, h3, hp]

/-- C3 witness: the characterisation applied at the run `42`, which
parses to the integer `42`. -/
theorem c3_integer_branch_characterisation_witness :
    decodeVal 6 ('i' :: ("42".toList ++ 'e' :: [])) = .ok (.int 42, []) :=
  (c3_integer_branch_characterisation.1 ("42".toList) [] 5 (by decide)).2 42
    (by decide) (by decide) (by decide) (by decide)

/-! ## The two end-of-stream conditions -/

theorem decodeString_error_ty {s : List Char} {e : BError}
    (h : decodeString s = .error e) : e.ty ≠ .syn := by
  unfold decodeString at h
  repeat' split at h
  all_goals cases h <;> simp

theorem decodeInteger_error_ty {s : List Char} {e : BError}
    (h : decodeInteger s = .error e) : e.ty ≠ .syn := by
  unfold decodeInteger at h
  repeat' split at h
  all_goals cases h <;> simp

/-- An error of the null-root category can only be the sentinel itself,
produced at the top of the decoder on empty input: neither the item loop
nor the pair loop ever lets it escape, and every other error site uses a
different category. Proved for all three decoder functions at once by
induction on the fuel. -/
theorem decode_syn_err (fuel : Nat) :
    (∀ (s : List Char) (e : BError),
      decodeVal fuel s = .error e → e.ty = .syn → s = [] ∧ e = ErrNullRootValue)
    ∧ (∀ (s : List Char) (e : BError), decodeItems fuel s = .error e → e.ty ≠ .syn)
    ∧ (∀ (s : List Char) (fk : Bool) (pk : List Char) (acc : List (List Char × BVal))
        (e : BError), decodePairs fuel s fk pk acc = .error e → e.ty ≠ .syn) := by
  induction fuel with
  | zero =>
    refine ⟨?_, ?_, ?_⟩
    · intro s e h hty
      simp only [decodeVal] at h
      cases h
      simp at hty
    · intro s e h
      simp only [decodeItems] at h
      cases h
      simp
    · intro s fk pk acc e h
      simp only [decodePairs] at h
      cases h
      simp
  | succ fuel ih =>
    refine ⟨?_, ?_, ?_⟩
    · intro s e h hty
      cases s with
      | nil =>
        simp only [decodeVal] at h
        cases h
        exact ⟨rfl, rfl⟩
      | cons c cs =>
        simp only [decodeVal] at h
        repeat' split at h
        all_goals first
          | ((cases h <;> simp at hty); done)
          | (exact absurd hty (decodeString_error_ty h))
          | (exact absurd hty (decodeInteger_error_ty h))
          | (cases h; rename_i heq; exact absurd hty (ih.2.1 cs _ heq))
          | (cases h; rename_i heq; exact absurd hty (ih.2.2 cs true [] [] _ heq))
    · intro s e h
      cases s with
      | nil =>
        simp only [decodeItems] at h
        cases h
        simp
      | cons c cs =>
        simp only [decodeItems] at h
        repeat' split at h
        all_goals first
          | ((cases h <;> simp); done)
          | (simp; done)
          | (cases h; rename_i heq hne; intro hsyn;
             exact absurd ((ih.1 _ _ heq hsyn).2) hne)
          | (cases h; rename_i heq; exact ih.2.1 _ _ heq)
    · intro s fk pk acc e h
      cases s with
      | nil =>
        simp only [decodePairs] at h
        cases h
        simp
      | cons c cs =>
        simp only [decodePairs] at h
        repeat' split at h
        all_goals first
          | ((cases h <;> simp); done)
          | (simp; done)
          | (cases h; rename_i heq hne; intro hsyn;
             exact absurd ((ih.1 _ _ heq hsyn).2) hne)
          | (exact ih.2.2 _ false _ _ _ h)

theorem decodeVal_syn_err {fuel : Nat} {s : List Char} {e : BError}
    (h : decodeVal fuel s = .error e) (hty : e.ty = .syn) :
    s = [] ∧ e = ErrNullRootValue :=
  (decode_syn_err fuel).1 s e h hty

/-- C9: empty input at the top level yields the distinct null-root
sentinel; any nonempty input never yields that sentinel, and truncated
structures yield the unexpected-EOF category, which differs from the
sentinel's category. -/
theorem c9_null_root_vs_unexpected_eof :
    decodeTop [] = .error ErrNullRootValue
    ∧ (∀ (s : List Char) (e : BError), s ≠ [] → decodeTop s = .error e → e ≠ ErrNullRootValue)
    ∧ decodeTop ("l4:spam".toList) = .error { ty := .synEOF, wraps := some .synEOF }
    ∧ decodeTop ("i123".toList) = .error { ty := .synEOF, wraps := some .synEOF }
    ∧ decodeTop ("d3:bar3:baz".toList) = .error { ty := .synEOF, wraps := some .synEOF }
    ∧ ({ ty := .synEOF, wraps := some .synEOF } : BError) ≠ ErrNullRootValue := by
  refine ⟨rfl, ?_, rfl, rfl, rfl, by simp [ErrNullRootValue]⟩
  intro s e hs h hnull
  subst hnull
  unfold decodeTop at h
  cases hval : decodeVal (s.length + 1) s with
  | error e2 =>
    rw [hval] at h
    simp only [Except.map] at h
    cases h
    exact hs (decodeVal_syn_err hval rfl).1
  | ok p =>
    rw [hval] at h
    simp only [Except.map] at h
    cases h

/-! ## Dictionary ordering invariant -/

/-- Every dictionary anywhere inside a value has strictly ascending,
hence duplicate-free, keys. -/
inductive SortedDicts : BVal → Prop
  | str (s : List Char) : SortedDicts (.str s)
  | int (n : Int) : SortedDicts (.int n)
  | list (items : List BVal) : (∀ v ∈ items, SortedDicts v) → SortedDicts (.list items)
  | dict (ps : List (List Char × BVal)) :
      List.Pairwise (fun a b => lexLt a.1 b.1 = true) ps →
      (∀ p ∈ ps, SortedDicts p.2) → SortedDicts (.dict ps)

theorem decodeString_ok_shape {s : List Char} {v : BVal} {rest : List Char}
    (h : decodeString s = .ok (v, rest)) : ∃ bytes, v = .str bytes := by
  unfold decodeString at h
  repeat' split at h
  all_goals cases h
  exact ⟨_, rfl⟩

theorem decodeInteger_ok_shape {s : List Char} {v : BVal} {rest : List Char}
    (h : decodeInteger s = .ok (v, rest)) : ∃ n, v = .int n := by
  unfold decodeInteger at h
  repeat' split at h
  all_goals cases h
  exact ⟨_, rfl⟩

/-- The decoder only produces values whose dictionaries are strictly
ascending: the pair loop rejects a duplicate key against the pairs read
so far and a key not strictly above the previous one, so whatever it
returns extends its accumulator in strictly ascending order. Proved for
all three decoder functions at once by induction on the fuel. -/
theorem decode_sorted (fuel : Nat) :
    (∀ (s : List Char) (v : BVal) (rest : List Char),
      decodeVal fuel s = .ok (v, rest) → SortedDicts v)
    ∧ (∀ (s : List Char) (vs : List BVal) (rest : List Char),
      decodeItems fuel s = .ok (vs, rest) → ∀ v ∈ vs, SortedDicts v)
    ∧ (∀ (s : List Char) (fk : Bool) (pk : List Char) (acc ps : List (List Char × BVal))
        (rest : List Char),
      decodePairs fuel s fk pk acc = .ok (ps, rest) →
      (fk = true → acc = []) →
      (fk = false →
        List.Pairwise (fun a b => lexLt a.1 b.1 = true) acc
        ∧ ∀ p ∈ acc, lexLt p.1 pk = true ∨ p.1 = pk) →
      (∀ p ∈ acc, SortedDicts p.2) →
      List.Pairwise (fun a b => lexLt a.1 b.1 = true) ps ∧ ∀ p ∈ ps, SortedDicts p.2) := by
  induction fuel with
  | zero =>
    refine ⟨?_, ?_, ?_⟩
    · intro s v rest h; simp only [decodeVal] at h; cases h
    · intro s vs rest h; simp only [decodeItems] at h; cases h
    · intro s fk pk acc ps rest h _ _ _; simp only [decodePairs] at h; cases h
  | succ fuel ih =>
    refine ⟨?_, ?_, ?_⟩
    · intro s v rest h
      cases s with
      | nil => simp only [decodeVal] at h; cases h
      | cons c cs =>
        simp only [decodeVal] at h
        by_cases hdig : isDigitCh c
        · rw [if_pos hdig] at h
          obtain ⟨bytes, hb⟩ := decodeString_ok_shape h
          subst hb
          exact SortedDicts.str bytes
        rw [if_neg hdig] at h
        by_cases hi : c = 'i'
        · rw [if_pos hi] at h
          obtain ⟨n, hn⟩ := decodeInteger_ok_shape h
          subst hn
          exact SortedDicts.int n
        rw [if_neg hi] at h
        by_cases hl : c = 'l'
        · rw [if_pos hl] at h
          cases hits : decodeItems fuel cs with
          | error e2 => simp only [hits] at h; cases h
          | ok q =>
            simp only [hits] at h
            cases h
            exact SortedDicts.list q.1 (ih.2.1 cs q.1 q.2 (by rw [hits]))
        rw [if_neg hl] at h
        by_cases hd : c = 'd'
        · rw [if_pos hd] at h
          cases hps : decodePairs fuel cs true [] [] with
          | error e2 => simp only [hps] at h; cases h
          | ok q =>
            simp only [hps] at h
            cases h
            have := ih.2.2 cs true [] [] q.1 q.2 (by rw [hps])
              (fun _ => rfl) (by simp) (by simp)
            exact SortedDicts.dict q.1 this.1 this.2
        rw [if_neg hd] at h
        cases h
    · intro s vs rest h
      cases s with
      | nil => simp only [decodeItems] at h; cases h
      | cons c cs =>
        simp only [decodeItems] at h
        by_cases he : c = 'e'
        · rw [if_pos he] at h
          cases h
          intro v hv
          simp at hv
        rw [if_neg he] at h
        cases hval : decodeVal fuel (c :: cs) with
        | error e2 =>
          simp only [hval] at h
          by_cases hnull : e2 = ErrNullRootValue
          · rw [if_pos hnull] at h; cases h
          · rw [if_neg hnull] at h; cases h
        | ok p =>
          simp only [hval] at h
          cases hrest : decodeItems fuel p.2 with
          | error e2 => simp only [hrest] at h; cases h
          | ok q =>
            simp only [hrest] at h
            cases h
            intro v hv
            rcases List.mem_cons.mp hv with hv1 | hv2
            · subst hv1
              exact ih.1 _ _ _ hval
            · exact ih.2.1 _ _ _ hrest v hv2
    · intro s fk pk acc ps rest h ht hf hvals
      cases s with
      | nil => simp only [decodePairs] at h; cases h
      | cons c cs =>
        simp only [decodePairs] at h
        by_cases he : c = 'e'
        · rw [if_pos he] at h
          cases h
          cases fk with
          | true => simp [ht rfl]
          | false => exact ⟨(hf rfl).1, hvals⟩
        rw [if_neg he] at h
        cases hval : decodeVal fuel (c :: cs) with
        | error e2 =>
          simp only [hval] at h
          by_cases hnull : e2 = ErrNullRootValue
          · rw [if_pos hnull] at h; cases h
          · rw [if_neg hnull] at h; cases h
        | ok p =>
          simp only [hval] at h
          obtain ⟨bv, rest0⟩ := p
          cases bv with
          | str k =>
            simp only at h
            by_cases hdup : (acc.any (fun p => p.1 = k)) = true
            · rw [if_pos hdup] at h
              cases h
            rw [if_neg hdup] at h
            by_cases hsort : (!fk && !lexLt pk k) = true
            · rw [if_pos hsort] at h
              cases h
            rw [if_neg hsort] at h
            cases hval2 : decodeVal fuel rest0 with
            | error e2 =>
              simp only [hval2] at h
              by_cases hnull2 : e2 = ErrNullRootValue
              · rw [if_pos hnull2] at h; cases h
              · rw [if_neg hnull2] at h; cases h
            | ok q =>
              simp only [hval2] at h
              have hkgt : ∀ p ∈ acc, lexLt p.1 k = true := by
                intro p hp
                cases fk with
                | true => rw [ht rfl] at hp; simp at hp
                | false =>
                  have hpk : lexLt pk k = true := by
                    simpa using hsort
                  rcases (hf rfl).2 p hp with hlt | heqk
                  · exact lexLt_trans hlt hpk
                  · rw [heqk]; exact hpk
              have hpw :
                  List.Pairwise (fun a b => lexLt a.1 b.1 = true) (acc ++ [(k, q.1)]) := by
                rw [List.pairwise_append]
                refine ⟨?_, by simp, ?_⟩
                · cases fk with
                  | true => rw [ht rfl]; exact List.Pairwise.nil
                  | false => exact (hf rfl).1
                · intro a ha b hb
                  simp only [List.mem_singleton] at hb
                  subst hb
                  exact hkgt a ha
              have hall : ∀ p ∈ acc ++ [(k, q.1)], lexLt p.1 k = true ∨ p.1 = k := by
                intro p hp
                rcases List.mem_append.mp hp with hp1 | hp2
                · exact Or.inl (hkgt p hp1)
                · simp only [List.mem_singleton] at hp2
                  subst hp2
                  exact Or.inr rfl
              have hvals2 : ∀ p ∈ acc ++ [(k, q.1)], SortedDicts p.2 := by
                intro p hp
                rcases List.mem_append.mp hp with hp1 | hp2
                · exact hvals p hp1
                · simp only [List.mem_singleton] at hp2
                  subst hp2
                  exact ih.1 _ _ _ (by rw [hval2])
              exact ih.2.2 _ false _ _ _ _ h (by simp) (fun _ => ⟨hpw, hall⟩) hvals2
          | int n => simp only at h; cases h
          | list items => simp only at h; cases h
          | dict ps2 => simp only at h; cases h

/-- C4: decoding never returns a dictionary whose keys are out of order
or duplicated — every dictionary in a returned value has strictly
ascending (hence duplicate-free) keys — and a violating input fails with
the structure category naming the offending key: `baz` after `foo` is the
sort-order error carrying `baz`, a repeated `foo` is the duplicate-key
error carrying `foo`. -/
theorem c4_unsorted_or_duplicate_dict_rejected :
    (∀ (s : List Char) (v : BVal), decodeTop s = .ok v → SortedDicts v)
    ∧ (∀ ps : List (List Char × BVal),
        List.Pairwise (fun a b => lexLt a.1 b.1 = true) ps → (ps.map Prod.fst).Nodup)
    ∧ decodeTop ("d3:foo3:bar3:baz3:quxe".toList) =
        .error { ty := .stKeySort, field := "baz".toList, wraps := some .stKeySort }
    ∧ decodeTop ("d3:fooi42e3:fooi43ee".toList) =
        .error { ty := .stKeyDup, field := "foo".toList, wraps := some .stKeyDup } := by
  refine ⟨?_, ?_, rfl, rfl⟩
  · intro s v h
    unfold decodeTop at h
    cases hval : decodeVal (s.length + 1) s with
    | error e2 =>
      rw [hval] at h
      simp only [Except.map] at h
      cases h
    | ok p =>
      rw [hval] at h
      simp only [Except.map] at h
      cases h
      exact (decode_sorted _).1 _ _ _ (by rw [hval])
  · intro ps hpw
    exact List.Pairwise.map Prod.fst (fun a b hab => lexLt_ne hab) hpw

/-- C4 witness: a well-ordered dictionary input decodes to a value whose
dictionaries are sorted. -/
theorem c4_unsorted_or_duplicate_dict_rejected_witness :
    SortedDicts (.dict [("bar".toList, .str ("spam".toList)), ("foo".toList, .int 42)]) :=
  c4_unsorted_or_duplicate_dict_rejected.1 ("d3:bar4:spam3:fooi42ee".toList) _ rfl

/-- C10: a dictionary whose first key is the empty string (`0:`) decodes
successfully — the `firstKey` flag skips the ordering comparison for the
first key, which a `prevKey >= strKey` check against the empty-string
sentinel would wrongly reject — while later keys are still checked: a
second empty key is rejected (as a duplicate, the check that runs first),
and any key after a nonempty one must still sort strictly above it. -/
theorem c10_empty_first_key_decodes :
    decodeTop ("d0:i1e1:ai2ee".toList) =
      .ok (.dict [([], .int 1), ("a".toList, .int 2)])
    ∧ decodeTop ("d0:0:e".toList) = .ok (.dict [([], .str [])])
    ∧ decodeTop ("d0:i1e0:i2ee".toList) =
      .error { ty := .stKeyDup, field := [], wraps := some .stKeyDup }
    ∧ decodeTop ("d1:ai1e0:i2ee".toList) =
      .error { ty := .stKeySort, field := [], wraps := some .stKeySort } :=
  ⟨rfl, rfl, rfl, rfl⟩

/-! ## The required-aware struct binding (spec-modelled, see
`populateStructSpec`) -/

theorem setVal_getElem_ne :
    ∀ (l : List (FieldDecl × GoVal)) (i j : Nat) (v : GoVal),
      i ≠ j → (setVal l j v)[i]? = l[i]? := by
  intro l
  induction l with
  | nil => intro i j v _; simp [setVal]
  | cons p rest ih =>
    intro i j v hij
    obtain ⟨d, old⟩ := p
    cases j with
    | zero =>
      cases i with
      | zero => exact absurd rfl hij
      | succ i2 => simp [setVal]
    | succ j2 =>
      cases i with
      | zero => simp [setVal]
      | succ i2 =>
        simp only [setVal, List.getElem?_cons_succ]
        exact ih i2 j2 v (fun hc => hij (by rw [hc]))

/-- If the spec binder's descriptor walk succeeds, every `required`
descriptor it visited had its wire key present. -/
theorem populateSpecLoop_ok_required
    (flds : List (FieldDecl × GoType)) (ps : List (List Char × BVal)) :
    ∀ (info : List FieldInfo) (acc gfs : List (FieldDecl × GoVal)),
      populateSpecLoop flds ps info acc = .ok gfs →
      ∀ fi ∈ info, fi.required = true → ∃ bv, assocFind ps fi.bencodeTag = some bv := by
  intro info
  induction info with
  | nil => intro acc gfs _ fi hfi; simp at hfi
  | cons fi0 rest ih =>
    intro acc gfs h fi hfi hreq
    simp only [populateSpecLoop] at h
    cases hfind : assocFind ps fi0.bencodeTag with
    | none =>
      simp only [hfind] at h
      by_cases hreq0 : fi0.required = true
      · rw [if_pos hreq0] at h
        cases h
      · rw [if_neg hreq0] at h
        rcases List.mem_cons.mp hfi with hfi0 | hfir
        · subst hfi0
          exact absurd hreq hreq0
        · exact ih acc gfs h fi hfir hreq
    | some bv =>
      simp only [hfind] at h
      rcases List.mem_cons.mp hfi with hfi0 | hfir
      · subst hfi0
        exact ⟨bv, hfind⟩
      · cases hidx : flds[fi0.index]? with
        | none =>
          simp only [hidx] at h
          exact ih acc gfs h fi hfir hreq
        | some dt =>
          simp only [hidx] at h
          obtain ⟨d, t⟩ := dt
          cases hb : bindVal t bv with
          | error e2 => simp only [hb] at h; cases h
          | ok gv =>
            simp only [hb] at h
            exact ih _ gfs h fi hfir hreq

/-- A field index no visited descriptor binds keeps its incoming value. -/
theorem populateSpecLoop_preserves_unset
    (flds : List (FieldDecl × GoType)) (ps : List (List Char × BVal)) :
    ∀ (info : List FieldInfo) (acc gfs : List (FieldDecl × GoVal)),
      populateSpecLoop flds ps info acc = .ok gfs →
      ∀ i : Nat, (∀ fi ∈ info, fi.index = i → assocFind ps fi.bencodeTag = none) →
      gfs[i]? = acc[i]? := by
  intro info
  induction info with
  | nil =>
    intro acc gfs h i _
    simp only [populateSpecLoop] at h
    cases h
    rfl
  | cons fi0 rest ih =>
    intro acc gfs h i habs
    simp only [populateSpecLoop] at h
    cases hfind : assocFind ps fi0.bencodeTag with
    | none =>
      simp only [hfind] at h
      by_cases hreq0 : fi0.required = true
      · rw [if_pos hreq0] at h
        cases h
      · rw [if_neg hreq0] at h
        exact ih acc gfs h i (fun fi hfi => habs fi (List.mem_cons_of_mem _ hfi))
    | some bv =>
      simp only [hfind] at h
      have hne : fi0.index ≠ i := by
        intro hc
        have := habs fi0 (List.mem_cons_self _ _) hc
        rw [this] at hfind
        cases hfind
      cases hidx : flds[fi0.index]? with
      | none =>
        simp only [hidx] at h
        exact ih acc gfs h i (fun fi hfi => habs fi (List.mem_cons_of_mem _ hfi))
      | some dt =>
        simp only [hidx] at h
        obtain ⟨d, t⟩ := dt
        cases hb : bindVal t bv with
        | error e2 => simp only [hb] at h; cases h
        | ok gv =>
          simp only [hb] at h
          have := ih _ gfs h i (fun fi hfi => habs fi (List.mem_cons_of_mem _ hfi))
          rw [this, setVal_getElem_ne acc i fi0.index gv (fun hc => hne hc.symm)]

/-- The required-tag test struct of the repository's tests: three
`required` fields, two plain ones. -/
def c6Fields : List (FieldDecl × GoType) :=
  [({ name := "Name".toList, tag := "name,required".toList }, .tstr),
   ({ name := "Age".toList, tag := "age,required".toList }, .tint),
   ({ name := "City".toList, tag := "city".toList }, .tstr),
   ({ name := "Country".toList, tag := "country,required".toList }, .tstr),
   ({ name := "Optional".toList, tag := "optional_field".toList }, .tstr)]

/-- C6: binding a decoded dictionary into a record via the spec's
required-aware walk. If binding succeeds, every `required` descriptor's
wire key was present (so a missing required key always fails); a field
index none of whose descriptors found a key keeps its default; and
concretely, a dictionary holding only `city` fails with the
required-field category naming `age` (the first required key in cache
order), while a non-required absent key (`city`) binds to the field's
default without error. -/
theorem c6_required_key_binding :
    (∀ (flds : List (FieldDecl × GoType)) (ps : List (List Char × BVal))
        (gfs : List (FieldDecl × GoVal)),
      populateStructSpec flds ps = .ok gfs →
      (∀ fi ∈ structInfoFields (flds.map Prod.fst), fi.required = true →
        ∃ bv, assocFind ps fi.bencodeTag = some bv)
      ∧ (∀ i : Nat, (∀ fi ∈ structInfoFields (flds.map Prod.fst), fi.index = i →
            assocFind ps fi.bencodeTag = none) →
          gfs[i]? = (defaultFields flds)[i]?))
    ∧ populateStructSpec c6Fields [("city".toList, .str ("NewYork".toList))] =
        .error { ty := .umRequired, field := "age".toList }
    ∧ populateStructSpec
        [({ name := "Name".toList, tag := "name,required".toList }, .tstr),
         ({ name := "City".toList, tag := "city".toList }, .tstr)]
        [("name".toList, .str ['J', 'o', 'h', 'n'])] =
      .ok [({ name := "Name".toList, tag := "name,required".toList }, .vstr ['J', 'o', 'h', 'n']),
           ({ name := "City".toList, tag := "city".toList }, .vstr [])] := by
  refine ⟨?_, rfl, ?_⟩
  · intro flds ps gfs h
    exact ⟨populateSpecLoop_ok_required flds ps _ _ _ h,
      fun i hi => populateSpecLoop_preserves_unset flds ps _ _ _ h i hi⟩
  · have hdf :
        defaultFields
          [({ name := "Name".toList, tag := "name,required".toList }, .tstr),
           ({ name := "City".toList, tag := "city".toList }, .tstr)] =
        [({ name := "Name".toList, tag := "name,required".toList }, .vstr []),
         ({ name := "City".toList, tag := "city".toList }, .vstr [])] := by
      simp [defaultFields, defaultVal]
    have hb : bindVal .tstr (.str ['J', 'o', 'h', 'n']) = .ok (.vstr ['J', 'o', 'h', 'n']) := by
      simp [bindVal]
    simp only [populateStructSpec, hdf]
    simp [populateSpecLoop, structInfoFields, collectFields, parseTagValue, cutComma,
      readString, trimSpace, isSpaceCh, splitComma, splitCommaAux, assocFind, setVal, hb,
      tagLe, strLe, lexLt]

/-- C6 witness: the universal part applied to the two-field record bound
from a dictionary holding only `name`. -/
theorem c6_required_key_binding_witness :
    ∃ bv, assocFind [("name".toList, BVal.str ['J', 'o', 'h', 'n'])] ("name".toList) = some bv :=
  ((c6_required_key_binding.1
      [({ name := "Name".toList, tag := "name,required".toList }, .tstr),
       ({ name := "City".toList, tag := "city".toList }, .tstr)]
      [("name".toList, .str ['J', 'o', 'h', 'n'])]
      [({ name := "Name".toList, tag := "name,required".toList }, .vstr ['J', 'o', 'h', 'n']),
       ({ name := "City".toList, tag := "city".toList }, .vstr [])]
      c6_required_key_binding.2.2).1
    { fieldName := "Name".toList, bencodeTag := "name".toList, index := 0,
      required := true, omitEmpty := false }
    (by simp [structInfoFields, collectFields, parseTagValue, cutComma, readString,
      trimSpace, isSpaceCh, splitComma, splitCommaAux, tagLe, strLe, lexLt])
    rfl)

/-! ## The decimal renderer inverts the decimal parser -/

theorem decDigit_spec (k : Nat) (h : k < 10) :
    isDigitCh (decDigit k) = true ∧ digitVal (decDigit k) = k := by
  interval_cases k <;> exact ⟨by decide, by decide⟩

theorem decDigit_mod (n : Nat) : decDigit n = decDigit (n % 10) := by
  unfold decDigit
  have h : n % 10 % 10 = n % 10 := by omega
  rw [h]

theorem decDigit_digit (n : Nat) : isDigitCh (decDigit n) = true := by
  rw [decDigit_mod]
  exact (decDigit_spec (n % 10) (by omega)).1

theorem digitVal_decDigit (n : Nat) : digitVal (decDigit n) = n % 10 := by
  rw [decDigit_mod]
  exact (decDigit_spec (n % 10) (by omega)).2

theorem natDecAux_append : ∀ (fuel n : Nat) (acc : List Char),
    natDecAux fuel n acc = natDecAux fuel n [] ++ acc := by
  intro fuel
  induction fuel with
  | zero => intro n acc; simp [natDecAux]
  | succ f ih =>
    intro n acc
    by_cases h : n < 10
    · simp [natDecAux, h]
    · simp only [natDecAux, if_neg h]
      rw [ih (n / 10) (decDigit n :: acc), ih (n / 10) [decDigit n]]
      simp

theorem natDecAux_fuel : ∀ (n f1 f2 : Nat), n ≤ f1 → n ≤ f2 →
    natDecAux f1 n [] = natDecAux f2 n [] := by
  intro n
  induction n using Nat.strong_induction_on with
  | _ n ih =>
    intro f1 f2 h1 h2
    by_cases h : n < 10
    · cases f1 <;> cases f2 <;> simp [natDecAux, h]
    · cases f1 with
      | zero => omega
      | succ g1 =>
        cases f2 with
        | zero => omega
        | succ g2 =>
          simp only [natDecAux, if_neg h]
          rw [natDecAux_append g1, natDecAux_append g2]
          have hlt : n / 10 < n := Nat.div_lt_self (by omega) (by omega)
          rw [ih (n / 10) hlt g1 g2 (by omega) (by omega)]

/-- One unrolling of the decimal renderer: the digits of `n / 10` (none
when `n` is a single digit) followed by the digit of `n % 10`. -/
theorem natDec_step (n : Nat) :
    natDec n = (if n < 10 then [] else natDec (n / 10)) ++ [decDigit n] := by
  unfold natDec
  by_cases h : n < 10
  · rw [if_pos h]
    cases n with
    | zero => rfl
    | succ m => simp [natDecAux, h]
  · rw [if_neg h]
    cases n with
    | zero => omega
    | succ m =>
      simp only [natDecAux, if_neg h]
      rw [natDecAux_append]
      have hle : (m + 1) / 10 ≤ m := by omega
      rw [natDecAux_fuel ((m + 1) / 10) m ((m + 1) / 10) hle (le_refl _)]

theorem natDec_ne_nil (n : Nat) : natDec n ≠ [] := by
  rw [natDec_step]; simp

theorem natDec_digits (n : Nat) : ∀ c ∈ natDec n, isDigitCh c = true := by
  induction n using Nat.strong_induction_on with
  | _ n ih =>
    intro c hc
    rw [natDec_step] at hc
    rcases List.mem_append.1 hc with h | h
    · by_cases h10 : n < 10
      · simp [h10] at h
      · rw [if_neg h10] at h
        exact ih (n / 10) (Nat.div_lt_self (by omega) (by omega)) c h
    · have hc' : c = decDigit n := by simpa using h
      subst hc'
      exact decDigit_digit n

theorem digitsVal_append (a : List Char) (c : Char) :
    digitsVal (a ++ [c]) = 10 * digitsVal a + digitVal c := by
  unfold digitsVal
  rw [List.foldl_append]
  simp only [List.foldl_cons, List.foldl_nil]
  omega

/-- The decimal parser inverts the decimal renderer. -/
theorem digitsVal_natDec (n : Nat) : digitsVal (natDec n) = n := by
  induction n using Nat.strong_induction_on with
  | _ n ih =>
    rw [natDec_step, digitsVal_append, digitVal_decDigit]
    by_cases h : n < 10
    · rw [if_pos h]
      have h0 : digitsVal [] = 0 := rfl
      rw [h0]
      omega
    · rw [if_neg h, ih (n / 10) (Nat.div_lt_self (by omega) (by omega))]
      omega

theorem natDec_head_ne_zero : ∀ n : Nat, 1 ≤ n → ∀ c t, natDec n = c :: t → c ≠ '0' := by
  intro n
  induction n using Nat.strong_induction_on with
  | _ n ih =>
    intro h1 c t hct
    rw [natDec_step] at hct
    by_cases h : n < 10
    · rw [if_pos h, List.nil_append] at hct
      intro h0
      rw [List.cons.injEq] at hct
      have hd := digitVal_decDigit n
      rw [hct.1, h0] at hd
      have h00 : digitVal '0' = 0 := by decide
      omega
    · rw [if_neg h] at hct
      rcases hd : natDec (n / 10) with _ | ⟨c', t'⟩
      · exact absurd hd (natDec_ne_nil _)
      · rw [hd, List.cons_append, List.cons.injEq] at hct
        have := ih (n / 10) (Nat.div_lt_self (by omega) (by omega)) (by omega) c' t' hd
        rw [← hct.1]
        exact this

theorem natDec_zero : natDec 0 = ['0'] := rfl

theorem natDec_cons (n : Nat) :
    ∃ c t, natDec n = c :: t ∧ isDigitCh c = true := by
  rcases hd : natDec n with _ | ⟨c, t⟩
  · exact absurd hd (natDec_ne_nil n)
  · exact ⟨c, t, rfl, natDec_digits n c (by rw [hd]; simp)⟩

/-! ## The integer branch accepts exactly the renderer's output -/

theorem goParseInt64_natDec (n : Nat) (h : (n : Int) ≤ int64Max) :
    goParseInt64 (natDec n) = some (n : Int) := by
  have h2 : (digitsVal (natDec n) : Int) ≤ int64Max := by
    rw [digitsVal_natDec]; exact h
  have h3 := @goParseInt64_digits (natDec n) (natDec_ne_nil n) (natDec_digits n) h2
  rw [digitsVal_natDec] at h3
  exact h3

theorem goParseInt64_neg_natDec (n : Nat) (h2 : int64Min ≤ -(n : Int)) :
    goParseInt64 ('-' :: natDec n) = some (-(n : Int)) := by
  have hne : ¬(natDec n = []) := natDec_ne_nil n
  have hall : ((natDec n).any fun d => !isDigitCh d) = false := by
    simp only [List.any_eq_false]
    intro x hx
    simp [natDec_digits n x hx]
  have hm : ¬(-(n : Int) < int64Min) := by omega
  have hM : ¬(int64Max < -(n : Int)) := by simp only [int64Max]; omega
  simp [goParseInt64, hne, hall, digitsVal_natDec, hm, hM]

theorem intDec_chars (i : Int) : ∀ c ∈ intDec i, c = '-' ∨ isDigitCh c = true := by
  intro c hc
  unfold intDec at hc
  rcases List.mem_append.1 hc with h | h
  · left
    by_cases hi : i < 0
    · simp [hi] at h; exact h
    · simp [hi] at h
  · right; exact natDec_digits _ c h

theorem intDec_ne_e (i : Int) : ∀ c ∈ intDec i, c ≠ 'e' := by
  intro c hc
  rcases intDec_chars i c hc with h | h
  · rw [h]; decide
  · intro he
    rw [he] at h
    exact absurd h (by decide)

theorem intDec_ne_nil (i : Int) : intDec i ≠ [] := by
  unfold intDec
  intro h
  rw [List.append_eq_nil] at h
  exact natDec_ne_nil _ h.2

/-- Discharge the leading-zero test by showing neither pattern matches. -/
theorem intLeadZero_false (s : List Char)
    (h0 : ∀ x t, s ≠ '0' :: x :: t) (h1 : ∀ x t, s ≠ '-' :: '0' :: x :: t) :
    intLeadZero s = false := by
  unfold intLeadZero
  split
  · rename_i x t; exact absurd rfl (h0 x t)
  · rename_i x t; exact absurd rfl (h1 x t)
  · rfl

theorem intDec_not_leadZero (i : Int) : intLeadZero (intDec i) = false := by
  unfold intDec
  by_cases hi : i < 0
  · rw [if_pos hi]
    have h1 : 1 ≤ i.natAbs := by omega
    rcases hd : natDec i.natAbs with _ | ⟨c, t⟩
    · exact absurd hd (natDec_ne_nil _)
    · have hc0 : c ≠ '0' := natDec_head_ne_zero _ h1 c t hd
      rw [List.singleton_append]
      refine intLeadZero_false _ ?_ ?_
      · intro x t' h
        exact absurd (List.head_eq_of_cons_eq h) (by decide)
      · intro x t' h
        rw [List.cons.injEq] at h
        rw [List.cons.injEq] at h
        exact hc0 h.2.1
  · rw [if_neg hi, List.nil_append]
    by_cases h0 : i.natAbs = 0
    · rw [h0, natDec_zero]
      refine intLeadZero_false _ ?_ ?_ <;> intro x t' h <;> simp at h
    · rcases hd : natDec i.natAbs with _ | ⟨c, t⟩
      · exact absurd hd (natDec_ne_nil _)
      · have hc0 : c ≠ '0' := natDec_head_ne_zero _ (by omega) c t hd
        have hcd : isDigitCh c = true := natDec_digits _ c (by rw [hd]; simp)
        refine intLeadZero_false _ ?_ ?_
        · intro x t' h
          exact hc0 (List.head_eq_of_cons_eq h)
        · intro x t' h
          have := List.head_eq_of_cons_eq h
          rw [this] at hcd
          exact absurd hcd (by decide)

theorem intDec_ne_neg_zero (i : Int) : intDec i ≠ ['-', '0'] := by
  unfold intDec
  by_cases hi : i < 0
  · rw [if_pos hi]
    intro h
    have h2 : natDec i.natAbs = ['0'] := by simpa using h
    have h3 := digitsVal_natDec i.natAbs
    rw [h2] at h3
    have h4 : digitsVal ['0'] = 0 := by decide
    omega
  · rw [if_neg hi, List.nil_append]
    intro h
    have hm : '-' ∈ natDec i.natAbs := by rw [h]; simp
    have := natDec_digits _ _ hm
    exact absurd this (by decide)

theorem goParseInt64_intDec (i : Int) (hmin : int64Min ≤ i) (hmax : i ≤ int64Max) :
    goParseInt64 (intDec i) = some i := by
  unfold intDec
  by_cases hi : i < 0
  · rw [if_pos hi, List.singleton_append]
    have h2 : int64Min ≤ -(i.natAbs : Int) := by
      have he : -(i.natAbs : Int) = i := by omega
      rw [he]; exact hmin
    rw [goParseInt64_neg_natDec i.natAbs h2]
    congr 1
    omega
  · rw [if_neg hi, List.nil_append]
    have h : ((i.natAbs : Int)) ≤ int64Max := by omega
    rw [goParseInt64_natDec i.natAbs h]
    congr 1
    omega

/-- The decoder accepts the encoder's rendering of any `int64`, with any
continuation and any positive fuel. -/
theorem parse_intEnc (i : Int) (hmin : int64Min ≤ i) (hmax : i ≤ int64Max)
    (rest : List Char) (f : Nat) :
    decodeVal (f + 1) ('i' :: (intDec i ++ 'e' :: rest)) = .ok (.int i, rest) := by
  rw [decodeVal_int_dispatch, decodeInteger_char _ _ (intDec_ne_e i)]
  simp [intDec_ne_nil i, intDec_not_leadZero i, intDec_ne_neg_zero i,
    goParseInt64_intDec i hmin hmax]

/-- The decoder accepts the encoder's length-prefixed string rendering,
with any continuation and any positive fuel. -/
theorem parse_strEnc (s rest : List Char) (hlen : (s.length : Int) ≤ int64Max) (f : Nat) :
    decodeVal (f + 1) (encStr s ++ rest) = .ok (.str s, rest) := by
  unfold encStr
  have h := c2_amended_length_parsed_by_atoi (natDec s.length) (s ++ rest) f
    (natDec_ne_nil _) (natDec_digits _) (by rw [digitsVal_natDec]; exact hlen)
  rw [digitsVal_natDec] at h
  rw [List.append_assoc, List.cons_append, h]
  have hge : ¬((s ++ rest).length < s.length) := by simp
  rw [if_neg hge]
  rw [List.take_left, List.drop_left]

/-! ## The binder inverts the generic image on the round-trippable fragment -/

theorem assocFind_of_mem_nodup {α : Type} :
    ∀ (l : List (List Char × α)) (k : List Char) (x : α),
      (k, x) ∈ l → (l.map Prod.fst).Nodup → assocFind l k = some x := by
  intro l
  induction l with
  | nil => intro k x h _; simp at h
  | cons p rest ih =>
    intro k x h hnd
    obtain ⟨k2, v2⟩ := p
    simp only [List.mem_cons] at h
    simp only [List.map_cons, List.nodup_cons] at hnd
    rcases h with h | h
    · injection h with h1 h2
      subst h1
      subst h2
      simp [assocFind]
    · have hk : k2 ≠ k := by
        intro he
        subst he
        exact hnd.1 (List.mem_map.2 ⟨(k2, x), h, rfl⟩)
      simp only [assocFind, if_neg hk]
      exact ih k x h hnd.2

theorem gvalPairs_map_fst :
    ∀ ps : List (List Char × GoVal), (gvalPairs ps).map Prod.fst = ps.map Prod.fst := by
  intro ps
  induction ps with
  | nil => simp [gvalPairs]
  | cons p rest ih =>
    obtain ⟨k, v⟩ := p
    simp [gvalPairs, ih]

theorem gvalStructPairs_map (fs : List (FieldDecl × GoVal)) :
    ∀ info : List FieldInfo,
      gvalStructPairs fs info = info.map (fun fi => (fi.bencodeTag,
        match fs[fi.index]? with
        | some p => gval p.2
        | none => .int 0)) := by
  intro info
  induction info with
  | nil => simp [gvalStructPairs]
  | cons fi rest ih =>
    simp [gvalStructPairs, ih]
    rcases hp : fs[fi.index]? with _ | p <;> simp [hp]

theorem bindList_roundtrip (t : GoType) :
    ∀ (items : List GoVal), (∀ v ∈ items, typeOf v = t) →
      (∀ v ∈ items, bindVal t (gval v) = .ok v) →
      ∀ i : Nat, bindList t (gvalItems items) i = .ok items := by
  intro items
  induction items with
  | nil => intro _ _ i; simp [gvalItems, bindList]
  | cons v vs ih =>
    intro hty hbind i
    simp only [gvalItems, bindList, hbind v (by simp)]
    rw [ih (fun x hx => hty x (by simp [hx])) (fun x hx => hbind x (by simp [hx])) (i + 1)]

theorem bindMapPairs_roundtrip (t : GoType) :
    ∀ (ps : List (List Char × GoVal)),
      (∀ p ∈ ps, bindVal t (gval p.2) = .ok p.2) →
      bindMapPairs t (gvalPairs ps) = .ok ps := by
  intro ps
  induction ps with
  | nil => intro _; simp [gvalPairs, bindMapPairs]
  | cons p rest ih =>
    intro hbind
    obtain ⟨k, v⟩ := p
    simp only [gvalPairs, bindMapPairs, hbind (k, v) (by simp)]
    rw [ih (fun x hx => hbind x (by simp [hx]))]

theorem populateStruct_roundtrip (dps : List (List Char × BVal)) :
    ∀ (fs2 : List (FieldDecl × GoVal)),
      (∀ p ∈ fs2, p.1.exported = true) →
      (∀ p ∈ fs2, p.1.tag ≠ []) →
      (∀ p ∈ fs2, assocFind dps p.1.tag = some (gval p.2)) →
      (∀ p ∈ fs2, bindVal (typeOf p.2) (gval p.2) = .ok p.2) →
      populateStruct (typeOfFields fs2) dps = .ok fs2 := by
  intro fs2
  induction fs2 with
  | nil => intro _ _ _ _; simp [typeOfFields, populateStruct]
  | cons p rest ih =>
    intro hexp htag hfind hbind
    obtain ⟨d, v⟩ := p
    have he : d.exported = true := hexp (d, v) (by simp)
    have ht : d.tag ≠ [] := htag (d, v) (by simp)
    simp only [typeOfFields, populateStruct]
    rw [if_neg (by simp [he, ht])]
    split
    · rename_i heq
      rw [hfind (d, v) (by simp)] at heq
      cases heq
    · rename_i bv heq
      rw [hfind (d, v) (by simp)] at heq
      have hbv : gval v = bv := by
        injection heq
      subst hbv
      have hb : bindVal (typeOf v) (gval v) = .ok v := hbind (d, v) (by simp)
      simp only [hb]
      rw [ih (fun x hx => hexp x (by simp [hx])) (fun x hx => htag x (by simp [hx]))
        (fun x hx => hfind x (by simp [hx])) (fun x hx => hbind x (by simp [hx]))]

/-! ## Plain tags resolve to themselves in the metadata cache -/

theorem readString_none {d : Char} :
    ∀ {s : List Char}, (∀ c ∈ s, c ≠ d) → readString d s = none := by
  intro s
  induction s with
  | nil => intro _; rfl
  | cons c cs ih =>
    intro h
    have hc : c ≠ d := h c (by simp)
    simp only [readString, if_neg hc]
    rw [ih (fun x hx => h x (by simp [hx]))]
    rfl

theorem parseTagValue_plain {tag : List Char} (h : plainTag tag) :
    parseTagValue tag = (tag, false, false) := by
  obtain ⟨h1, h2, h3, h4, _⟩ := h
  have hc : cutComma tag = (tag, [], false) := by
    unfold cutComma
    rw [readString_none h3]
  simp [parseTagValue, h1, h2, hc, h4]

theorem resolvedTag_plain {d : FieldDecl} (h : plainTag d.tag) :
    resolvedTag d = d.tag := by
  unfold resolvedTag
  rw [parseTagValue_plain h]
  simp [h.1]

theorem collectFields_plain :
    ∀ (decls : List FieldDecl) (i : Nat),
      (∀ d ∈ decls, d.exported = true ∧ plainTag d.tag) →
      collectFields decls i = plainInfos decls i := by
  intro decls
  induction decls with
  | nil => intro i _; rfl
  | cons d rest ih =>
    intro i h
    have hd := h d (by simp)
    rw [collectFields, plainInfos, if_pos hd.1, ih (i + 1) (fun x hx => h x (by simp [hx]))]
    rw [parseTagValue_plain hd.2]
    simp [hd.2.1]

theorem mem_plainInfos :
    ∀ (decls : List FieldDecl) (i : Nat) (fi : FieldInfo),
      fi ∈ plainInfos decls i ↔
        ∃ j d, decls[j]? = some d ∧
          fi = { fieldName := d.name, bencodeTag := d.tag, index := i + j,
                 required := false, omitEmpty := false } := by
  intro decls
  induction decls with
  | nil => intro i fi; simp [plainInfos]
  | cons d rest ih =>
    intro i fi
    simp only [plainInfos, List.mem_cons]
    constructor
    · intro h
      rcases h with h | h
      · exact ⟨0, d, by simp, by simpa using h⟩
      · obtain ⟨j, d', hj, hfi⟩ := (ih (i + 1) fi).1 h
        refine ⟨j + 1, d', by simpa using hj, ?_⟩
        have he : i + 1 + j = i + (j + 1) := by omega
        rw [← he]
        exact hfi
    · intro h
      obtain ⟨j, d', hj, hfi⟩ := h
      cases j with
      | zero =>
        left
        have hd : d = d' := by simpa using hj
        rw [hfi, ← hd]
        simp
      | succ j' =>
        right
        refine (ih (i + 1) fi).2 ⟨j', d', by simpa using hj, ?_⟩
        have he : i + 1 + j' = i + (j' + 1) := by omega
        rw [he]
        exact hfi

theorem plainInfos_map_tag :
    ∀ (decls : List FieldDecl) (i : Nat),
      (plainInfos decls i).map FieldInfo.bencodeTag = decls.map FieldDecl.tag := by
  intro decls
  induction decls with
  | nil => intro i; rfl
  | cons d rest ih => intro i; simp [plainInfos, ih (i + 1)]

/-! ## The struct emission as key/value pairs -/

theorem gvalStructPairs_eq (fs : List (FieldDecl × GoVal)) :
    ∀ info : List FieldInfo,
      gvalStructPairs fs info = gvalPairs (structVals fs info) := by
  intro info
  induction info with
  | nil => simp [gvalStructPairs, structVals, gvalPairs]
  | cons fi rest ih =>
    simp only [gvalStructPairs, structVals, gvalPairs]
    rw [ih]
    rcases h : fs[fi.index]? with _ | f <;> simp [gval]

theorem structVals_map_fst (fs : List (FieldDecl × GoVal)) :
    ∀ info : List FieldInfo,
      (structVals fs info).map Prod.fst = info.map FieldInfo.bencodeTag := by
  intro info
  induction info with
  | nil => rfl
  | cons fi rest ih => simp [structVals, ih]

theorem emitInfo_eq_emitEnc (evs : List (List Char)) :
    ∀ info : List FieldInfo,
      emitInfo info evs =
        emitEnc (info.map fun fi => (fi.bencodeTag, evs.getD fi.index [])) := by
  intro info
  induction info with
  | nil => rfl
  | cons fi rest ih =>
    simp only [emitInfo, emitEnc, List.map_cons, List.flatMap_cons] at *
    rw [ih]

theorem encodeFieldVals_index :
    ∀ (fs : List (FieldDecl × GoVal)) (evs : List (List Char)),
      encodeFieldVals fs = .ok evs →
      ∀ (j : Nat) (p : FieldDecl × GoVal), fs[j]? = some p → p.1.exported = true →
        encodeVal p.2 = .ok (evs.getD j []) := by
  intro fs
  induction fs with
  | nil => intro evs _ j p hj; simp at hj
  | cons q rest ih =>
    intro evs henc j p hj hexp
    obtain ⟨d, v⟩ := q
    simp only [encodeFieldVals] at henc
    by_cases hd : d.exported = true
    · rw [if_pos (by simp [hd])] at henc
      cases hev : encodeVal v with
      | error e => simp only [hev] at henc; cases henc
      | ok bs =>
        cases hrest : encodeFieldVals rest with
        | error e => simp only [hev, hrest] at henc; cases henc
        | ok bss =>
          simp only [hev, hrest] at henc
          cases henc
          cases j with
          | zero =>
            have hp : (d, v) = p := by simpa using hj
            subst hp
            simpa using hev
          | succ j' =>
            have hj' : rest[j']? = some p := by simpa using hj
            simpa using ih bss hrest j' p hj' hexp
    · rw [if_neg (by simp [hd])] at henc
      cases hrest : encodeFieldVals rest with
      | error e => simp only [hrest] at henc; cases henc
      | ok bss =>
        simp only [hrest] at henc
        cases henc
        cases j with
        | zero =>
          have hp : (d, v) = p := by simpa using hj
          subst hp
          exact absurd (by simpa using hexp) hd
        | succ j' =>
          have hj' : rest[j']? = some p := by simpa using hj
          simpa using ih bss hrest j' p hj' hexp

/-- Every value the encoder accepts is emitted with a first byte that is
not the terminator `e`. -/
theorem encodeVal_head : ∀ {v : GoVal} {bv : List Char}, encodeVal v = .ok bv →
    ∃ c t, bv = c :: t ∧ c ≠ 'e' := by
  intro v bv h
  have hstr : ∀ s : List Char, ∃ c t, encStr s = c :: t ∧ c ≠ 'e' := by
    intro s
    obtain ⟨c, t, hnd, hcd⟩ := natDec_cons s.length
    refine ⟨c, t ++ ':' :: s, by simp [encStr, hnd], ?_⟩
    intro hc
    rw [hc] at hcd
    exact absurd hcd (by decide)
  cases v with
  | vint n =>
    simp only [encodeVal] at h
    cases h
    exact ⟨'i', _, rfl, by decide⟩
  | vuint n =>
    simp only [encodeVal] at h
    cases h
    exact ⟨'i', _, rfl, by decide⟩
  | vstr s =>
    simp only [encodeVal] at h
    cases h
    exact hstr s
  | vbytes s =>
    simp only [encodeVal] at h
    cases h
    exact hstr s
  | vlist t items =>
    simp only [encodeVal] at h
    cases he : encodeItems items with
    | error e => simp only [he] at h; cases h
    | ok bs => simp only [he] at h; cases h; exact ⟨'l', _, rfl, by decide⟩
  | vmap t ps =>
    simp only [encodeVal] at h
    cases he : encodeMapPairs ps with
    | error e => simp only [he] at h; cases h
    | ok eps => simp only [he] at h; cases h; exact ⟨'d', _, rfl, by decide⟩
  | vstruct fs =>
    simp only [encodeVal] at h
    cases he : encodeFieldVals fs with
    | error e => simp only [he] at h; cases h
    | ok evs => simp only [he] at h; cases h; exact ⟨'d', _, rfl, by decide⟩
  | vany b =>
    simp only [encodeVal] at h
    cases h
    cases b with
    | str s => exact hstr s
    | int n => exact ⟨'i', intDec n ++ ['e'], by simp [encodeB], by decide⟩
    | list items => exact ⟨'l', encodeBItems items ++ ['e'], by simp [encodeB], by decide⟩
    | dict ps =>
      exact ⟨'d', emitEnc (sortPairs (encodeBPairs ps)) ++ ['e'], by simp [encodeB], by decide⟩
  | vnil => simp only [encodeVal] at h; cases h

/-- The list loop parses a concatenation of item encodings terminated by
`e`, given that each item's encoding parses with any continuation. -/
theorem decodeItems_of_encodeItems :
    ∀ (items : List GoVal) (em : List Char),
      encodeItems items = .ok em →
      (∀ v ∈ items, ∀ bv, encodeVal v = .ok bv →
        ∀ (r : List Char) (f2 : Nat), bv.length ≤ f2 →
          decodeVal f2 (bv ++ r) = .ok (gval v, r)) →
      ∀ (f : Nat) (rest : List Char), em.length < f →
        decodeItems f (em ++ 'e' :: rest) = .ok (gvalItems items, rest) := by
  intro items
  induction items with
  | nil =>
    intro em henc hp f rest hf
    have hem : em = [] := by
      simp only [encodeItems] at henc
      cases henc; rfl
    subst hem
    cases f with
    | zero => omega
    | succ g => simp [decodeItems, gvalItems]
  | cons v vs ih =>
    intro em henc hp f rest hf
    simp only [encodeItems] at henc
    cases hev : encodeVal v with
    | error e => simp only [hev] at henc; cases henc
    | ok bv =>
      cases hrest : encodeItems vs with
      | error e => simp only [hev, hrest] at henc; cases henc
      | ok em2 =>
        simp only [hev, hrest] at henc
        cases henc
        obtain ⟨c, t, hbv, hce⟩ := encodeVal_head hev
        cases f with
        | zero => omega
        | succ g =>
          have hbvlen : bv.length ≤ g := by
            rw [List.length_append] at hf
            omega
          have hd := hp v (by simp) bv hev (em2 ++ 'e' :: rest) g hbvlen
          rw [hbv] at hd ⊢
          simp only [List.cons_append, List.append_assoc] at hd ⊢
          simp only [decodeItems, if_neg hce, hd]
          have hlen2 : em2.length < g := by
            rw [hbv] at hf
            simp only [List.length_append, List.length_cons] at hf
            omega
          rw [ih em2 hrest (fun x hx => hp x (by simp [hx])) g rest hlen2]
          simp [gvalItems]

theorem decodeVal_list_dispatch (g : Nat) (cs : List Char) :
    decodeVal (g + 1) ('l' :: cs) =
      match decodeItems g cs with
      | .error e => .error e
      | .ok (vs, rest) => .ok (.list vs, rest) := by
  have h : isDigitCh 'l' = false := by decide
  simp [decodeVal, h]

theorem decodeVal_dict_dispatch (g : Nat) (cs : List Char) :
    decodeVal (g + 1) ('d' :: cs) =
      match decodePairs g cs true [] [] with
      | .error e => .error e
      | .ok (ps, rest) => .ok (.dict ps, rest) := by
  have h : isDigitCh 'd' = false := by decide
  simp [decodeVal, h]

theorem encodeMapPairs_keys :
    ∀ (ps : List (List Char × GoVal)) (eps : List (List Char × List Char)),
      encodeMapPairs ps = .ok eps → eps.map Prod.fst = ps.map Prod.fst := by
  intro ps
  induction ps with
  | nil =>
    intro eps henc
    simp only [encodeMapPairs] at henc
    cases henc; rfl
  | cons p ps' ih =>
    intro eps henc
    obtain ⟨k, v⟩ := p
    simp only [encodeMapPairs] at henc
    cases hev : encodeVal v with
    | error e => simp only [hev] at henc; cases henc
    | ok bv =>
      cases hrest : encodeMapPairs ps' with
      | error e => simp only [hev, hrest] at henc; cases henc
      | ok eps2 =>
        simp only [hev, hrest] at henc
        cases henc
        simp [ih eps2 hrest]

theorem pairwise_pairLe_of_keys {α β : Type} {eps : List (List Char × α)}
    {ps : List (List Char × β)}
    (hkeys : eps.map Prod.fst = ps.map Prod.fst)
    (hps : ps.Pairwise fun a b => lexLt a.1 b.1 = true) :
    eps.Pairwise (pairLe (α := α)) := by
  have h1 : (ps.map Prod.fst).Pairwise (fun a b => lexLt a b = true) :=
    List.pairwise_map.2 hps
  rw [← hkeys] at h1
  exact (List.pairwise_map.1 h1).imp (fun h => lexLt_asymm h)

theorem pairwise_fst_of_map {α : Type} {xs : List (List Char × α)}
    {l : List (List Char)} (h : xs.map Prod.fst = l)
    (hl : l.Pairwise fun a b => lexLt a b = true) :
    xs.Pairwise (fun a b => lexLt a.1 b.1 = true) := by
  subst h
  exact List.pairwise_map.1 hl

/-- The cache entries of a struct with plain, distinct tags are in
strictly ascending wire-key order. -/
theorem structInfo_pairwise_lt (decls : List FieldDecl)
    (hpl : ∀ d ∈ decls, d.exported = true ∧ plainTag d.tag)
    (hnd : (decls.map FieldDecl.tag).Nodup) :
    (structInfoFields decls).Pairwise
      (fun a b => lexLt a.bencodeTag b.bencodeTag = true) := by
  have hs : (structInfoFields decls).Pairwise tagLe := structInfoFields_sorted decls
  have hperm : (structInfoFields decls).Perm (collectFields decls 0) :=
    List.perm_insertionSort tagLe (collectFields decls 0)
  have hkeys : ((structInfoFields decls).map FieldInfo.bencodeTag).Perm
      (decls.map FieldDecl.tag) := by
    have hm := hperm.map FieldInfo.bencodeTag
    rw [collectFields_plain decls 0 hpl, plainInfos_map_tag] at hm
    exact hm
  have hnd2 : ((structInfoFields decls).map FieldInfo.bencodeTag).Nodup :=
    hkeys.nodup_iff.2 hnd
  have hne : (structInfoFields decls).Pairwise
      (fun a b => a.bencodeTag ≠ b.bencodeTag) := List.pairwise_map.1 hnd2
  refine (hs.and hne).imp ?_
  intro a b hab
  by_cases h : lexLt a.bencodeTag b.bencodeTag = true
  · exact h
  · exfalso
    have h1 : lexLt a.bencodeTag b.bencodeTag = false := by
      cases hh : lexLt a.bencodeTag b.bencodeTag
      · rfl
      · exact absurd hh h
    exact hab.2 (lexLt_eq_of_not h1 hab.1)

/-- The wire keys of a plain-tagged struct's cache entries are distinct. -/
theorem structInfo_keys_nodup (decls : List FieldDecl)
    (hpl : ∀ d ∈ decls, d.exported = true ∧ plainTag d.tag)
    (hnd : (decls.map FieldDecl.tag).Nodup) :
    ((structInfoFields decls).map FieldInfo.bencodeTag).Nodup := by
  have hperm : (structInfoFields decls).Perm (collectFields decls 0) :=
    List.perm_insertionSort tagLe (collectFields decls 0)
  have hkeys : ((structInfoFields decls).map FieldInfo.bencodeTag).Perm
      (decls.map FieldDecl.tag) := by
    have hm := hperm.map FieldInfo.bencodeTag
    rw [collectFields_plain decls 0 hpl, plainInfos_map_tag] at hm
    exact hm
  exact hkeys.nodup_iff.2 hnd

/-- Every cache entry of a plain-tagged struct selects an actual field,
whose raw tag is the entry's wire key. -/
theorem structInfo_mem (fs : List (FieldDecl × GoVal))
    (hpl : ∀ f ∈ fs, f.1.exported = true ∧ plainTag f.1.tag) :
    ∀ fi ∈ structInfoFields (fs.map Prod.fst),
      ∃ p : FieldDecl × GoVal, fs[fi.index]? = some p ∧ fi.bencodeTag = p.1.tag ∧ p ∈ fs := by
  intro fi hfi
  have hpl' : ∀ d ∈ fs.map Prod.fst, d.exported = true ∧ plainTag d.tag := by
    intro d hd
    obtain ⟨p, hp, hpd⟩ := List.mem_map.1 hd
    exact hpd ▸ hpl p hp
  have hperm := List.perm_insertionSort tagLe (collectFields (fs.map Prod.fst) 0)
  have hmem := hperm.mem_iff.1 hfi
  rw [collectFields_plain _ 0 hpl'] at hmem
  obtain ⟨j, d, hj, hfieq⟩ := (mem_plainInfos _ 0 fi).1 hmem
  rw [List.getElem?_map] at hj
  cases hp : fs[j]? with
  | none => rw [hp] at hj; cases hj
  | some p =>
    rw [hp] at hj
    have hpd : p.1 = d := by simpa using hj
    have hidx : fi.index = j := by rw [hfieq]; simp
    have htag : fi.bencodeTag = d.tag := by rw [hfieq]
    exact ⟨p, by rw [hidx]; exact hp, by rw [htag, ← hpd], List.getElem?_mem hp⟩

/-- Conversely, every field of a plain-tagged struct has a cache entry
selecting it by index and keyed by its raw tag. -/
theorem structInfo_covers (fs : List (FieldDecl × GoVal))
    (hpl : ∀ f ∈ fs, f.1.exported = true ∧ plainTag f.1.tag) :
    ∀ (j : Nat) (p : FieldDecl × GoVal), fs[j]? = some p →
      ∃ fi ∈ structInfoFields (fs.map Prod.fst),
        fi.index = j ∧ fi.bencodeTag = p.1.tag := by
  intro j p hp
  have hpl' : ∀ d ∈ fs.map Prod.fst, d.exported = true ∧ plainTag d.tag := by
    intro d hd
    obtain ⟨q, hq, hqd⟩ := List.mem_map.1 hd
    exact hqd ▸ hpl q hq
  have hd : (fs.map Prod.fst)[j]? = some p.1 := by
    rw [List.getElem?_map, hp]; rfl
  have hmem := (mem_plainInfos (fs.map Prod.fst) 0
    ⟨p.1.name, p.1.tag, 0 + j, false, false⟩).2 ⟨j, p.1, hd, rfl⟩
  rw [← collectFields_plain _ 0 hpl'] at hmem
  have hs := (List.perm_insertionSort tagLe (collectFields (fs.map Prod.fst) 0)).mem_iff.2 hmem
  exact ⟨_, hs, by simp, rfl⟩

theorem encodeMapPairs_structVals (fs : List (FieldDecl × GoVal)) (evs : List (List Char)) :
    ∀ (info : List FieldInfo),
      (∀ fi ∈ info, ∃ p : FieldDecl × GoVal, fs[fi.index]? = some p ∧
        encodeVal p.2 = .ok (evs.getD fi.index [])) →
      encodeMapPairs (structVals fs info) =
        .ok (info.map fun fi => (fi.bencodeTag, evs.getD fi.index [])) := by
  intro info
  induction info with
  | nil => intro _; simp [structVals, encodeMapPairs]
  | cons fi rest ih =>
    intro h
    obtain ⟨p, hp, hev⟩ := h fi (by simp)
    simp only [structVals, hp]
    simp only [encodeMapPairs, hev, ih (fun x hx => h x (by simp [hx]))]
    simp

theorem mem_structVals (fs : List (FieldDecl × GoVal)) :
    ∀ (info : List FieldInfo) (q : List Char × GoVal), q ∈ structVals fs info →
      ∃ fi ∈ info, q.1 = fi.bencodeTag ∧
        ((∃ p, fs[fi.index]? = some p ∧ q.2 = p.2) ∨
          (fs[fi.index]? = none ∧ q.2 = .vnil)) := by
  intro info
  induction info with
  | nil => intro q hq; simp [structVals] at hq
  | cons fi rest ih =>
    intro q hq
    simp only [structVals, List.mem_cons] at hq
    rcases hq with hq | hq
    · refine ⟨fi, by simp, ?_⟩
      cases hp : fs[fi.index]? with
      | none =>
        simp only [hp] at hq
        exact ⟨by rw [hq], Or.inr ⟨rfl, by rw [hq]⟩⟩
      | some p =>
        simp only [hp] at hq
        exact ⟨by rw [hq], Or.inl ⟨p, rfl, by rw [hq]⟩⟩
    · obtain ⟨fi', hfi', hrest⟩ := ih q hq
      exact ⟨fi', by simp [hfi'], hrest⟩

/-- The dictionary loop parses emitted key/value pairs presented in
strictly ascending key order, given that each value's encoding parses
with any continuation; the accumulator and previous-key invariants mirror
the loop's duplicate and ordering checks. -/
theorem decodePairs_of_encodeMapPairs :
    ∀ (ps : List (List Char × GoVal)) (eps : List (List Char × List Char)),
      encodeMapPairs ps = .ok eps →
      (∀ p ∈ ps, ∀ bv, encodeVal p.2 = .ok bv →
        ∀ (r : List Char) (f2 : Nat), bv.length ≤ f2 →
          decodeVal f2 (bv ++ r) = .ok (gval p.2, r)) →
      (∀ p ∈ ps, (p.1.length : Int) ≤ int64Max) →
      ps.Pairwise (fun a b => lexLt a.1 b.1 = true) →
      ∀ (f : Nat) (rest : List Char) (fk : Bool) (pk : List Char)
        (acc : List (List Char × BVal)),
        (fk = false → ∀ p ∈ ps, lexLt pk p.1 = true) →
        (∀ q ∈ acc, ∀ p ∈ ps, q.1 ≠ p.1) →
        (emitEnc eps).length < f →
        decodePairs f (emitEnc eps ++ 'e' :: rest) fk pk acc =
          .ok (acc ++ gvalPairs ps, rest) := by
  intro ps
  induction ps with
  | nil =>
    intro eps henc hp hkl hsort f rest fk pk acc hprev hacc hf
    have heps : eps = [] := by
      simp only [encodeMapPairs] at henc
      cases henc; rfl
    subst heps
    cases f with
    | zero => simp [emitEnc] at hf
    | succ g => simp [emitEnc, decodePairs, gvalPairs]
  | cons p ps' ih =>
    intro eps henc hp hkl hsort f rest fk pk acc hprev hacc hf
    obtain ⟨k, v⟩ := p
    simp only [encodeMapPairs] at henc
    cases hev : encodeVal v with
    | error e => simp only [hev] at henc; cases henc
    | ok bv =>
      cases hrest : encodeMapPairs ps' with
      | error e => simp only [hev, hrest] at henc; cases henc
      | ok eps2 =>
        simp only [hev, hrest] at henc
        cases henc
        have hem : emitEnc ((k, bv) :: eps2) = encStr k ++ (bv ++ emitEnc eps2) := by
          simp [emitEnc]
        rw [hem] at hf ⊢
        obtain ⟨c, t, hk, hcd⟩ := natDec_cons k.length
        have hce : c ≠ 'e' := by
          intro h
          rw [h] at hcd
          exact absurd hcd (by decide)
        have hklen : 1 + k.length + 1 ≤ (encStr k).length := by
          simp [encStr, hk]
          omega
        simp only [List.length_append] at hf
        cases f with
        | zero => omega
        | succ g =>
          cases g with
          | zero => omega
          | succ g' =>
            -- the key parses as a bencode string
            have hkey := parse_strEnc k (bv ++ (emitEnc eps2 ++ 'e' :: rest))
              (hkl (k, v) (by simp)) g'
            -- expose the head byte of the pair emission
            have hshape : encStr k ++ (bv ++ emitEnc eps2) ++ 'e' :: rest =
                c :: (t ++ ':' :: k ++ (bv ++ (emitEnc eps2 ++ 'e' :: rest))) := by
              simp [encStr, hk]
            rw [hshape]
            simp only [decodePairs, if_neg hce]
            have hkey2 : decodeVal (g' + 1)
                (c :: (t ++ ':' :: k ++ (bv ++ (emitEnc eps2 ++ 'e' :: rest)))) =
                .ok (.str k, bv ++ (emitEnc eps2 ++ 'e' :: rest)) := by
              have hsh : encStr k ++ (bv ++ (emitEnc eps2 ++ 'e' :: rest)) =
                  c :: (t ++ ':' :: k ++ (bv ++ (emitEnc eps2 ++ 'e' :: rest))) := by
                simp [encStr, hk]
              rw [← hsh]
              exact hkey
            simp only [hkey2]
            -- duplicate check: no accumulated key equals k
            have hdup : (acc.any fun q => q.1 = k) = false := by
              simp only [List.any_eq_false]
              intro q hq
              have := hacc q hq (k, v) (by simp)
              simpa using this
            -- ordering check: pk < k unless this is the first key
            have hsortc : (!fk && !(lexLt pk k)) = false := by
              cases fk with
              | true => simp
              | false => simp [hprev rfl (k, v) (by simp)]
            simp only [hdup, hsortc, Bool.false_eq_true, if_false]
            -- the value parses
            have hbvlen : bv.length ≤ g' + 1 := by omega
            have hval : decodeVal (g' + 1) (bv ++ (emitEnc eps2 ++ 'e' :: rest)) =
                .ok (gval v, emitEnc eps2 ++ 'e' :: rest) :=
              hp (k, v) (by simp) bv hev (emitEnc eps2 ++ 'e' :: rest) (g' + 1) hbvlen
            simp only [hval]
            -- recurse on the remaining pairs
            have hpw := List.pairwise_cons.1 hsort
            rw [ih eps2 hrest (fun x hx => hp x (by simp [hx]))
              (fun x hx => hkl x (by simp [hx])) hpw.2 (g' + 1) rest false k
              (acc ++ [(k, gval v)])
              (fun _ x hx => hpw.1 x hx)
              ?_ ?_]
            · simp [gvalPairs]
            · intro q hq x hx
              rcases List.mem_append.1 hq with hq | hq
              · exact hacc q hq x (by simp [hx])
              · have hq2 : q = (k, gval v) := by simpa using hq
                rw [hq2]
                exact lexLt_ne (hpw.1 x hx)
            · omega

/-- The decoder inverts the encoder on the round-trippable fragment: the
emitted bytes of a `Trippable` value decode to its generic image, with
any continuation, under any fuel at least the byte count. -/
theorem parse_encodeVal :
    ∀ (N : Nat) (v : GoVal), sizeOf v ≤ N → Trippable v →
      ∀ (bytes : List Char), encodeVal v = .ok bytes →
      ∀ (rest : List Char) (f : Nat), bytes.length ≤ f →
        decodeVal f (bytes ++ rest) = .ok (gval v, rest) := by
  intro N
  induction N using Nat.strong_induction_on with
  | _ N ih =>
    intro v hsz htr bytes henc rest f hf
    cases htr with
    | vint n hmin hmax =>
      simp only [encodeVal] at henc
      cases henc
      cases f with
      | zero => simp at hf
      | succ g =>
        have hsh : ('i' :: intDec n ++ ['e']) ++ rest =
            'i' :: (intDec n ++ 'e' :: rest) := by simp
        rw [hsh, parse_intEnc n hmin hmax rest g]
        simp [gval]
    | vuint n hmax =>
      simp only [encodeVal] at henc
      cases henc
      cases f with
      | zero => simp at hf
      | succ g =>
        have hid : intDec (n : Int) = natDec n := by
          unfold intDec
          rw [if_neg (by omega)]
          simp
        have hsh : ('i' :: natDec n ++ ['e']) ++ rest =
            'i' :: (intDec (n : Int) ++ 'e' :: rest) := by rw [hid]; simp
        rw [hsh, parse_intEnc (n : Int) (by simp only [int64Min]; omega) hmax rest g]
        simp [gval]
    | vstr s hlen =>
      simp only [encodeVal] at henc
      cases henc
      obtain ⟨c, t, hnd, _⟩ := natDec_cons s.length
      cases f with
      | zero => simp [encStr, hnd] at hf
      | succ g =>
        rw [parse_strEnc s rest hlen g]
        simp [gval]
    | vlist t items hty htr2 =>
      simp only [encodeVal] at henc
      cases he : encodeItems items with
      | error e => simp only [he] at henc; cases henc
      | ok em =>
        simp only [he] at henc
        cases henc
        cases f with
        | zero => simp at hf
        | succ g =>
          have hsh : ('l' :: em ++ ['e']) ++ rest = 'l' :: (em ++ 'e' :: rest) := by simp
          rw [hsh, decodeVal_list_dispatch]
          have hszl : sizeOf items < N := by
            have h2 : sizeOf (GoVal.vlist t items) = 1 + sizeOf t + sizeOf items := by simp
            omega
          have hargs : ∀ x ∈ items, ∀ bv, encodeVal x = .ok bv →
              ∀ (r : List Char) (f2 : Nat), bv.length ≤ f2 →
                decodeVal f2 (bv ++ r) = .ok (gval x, r) := by
            intro x hx bv hbv r f2 hlen2
            have hxs : sizeOf x < sizeOf items := List.sizeOf_lt_of_mem hx
            exact ih (sizeOf x) (by omega) x le_rfl (htr2 x hx) bv hbv r f2 hlen2
          have hfuel : em.length < g := by
            simp at hf
            omega
          rw [decodeItems_of_encodeItems items em he hargs g rest hfuel]
          simp [gval]
    | vmap t ps hsort hkl hty htr2 =>
      simp only [encodeVal] at henc
      cases he : encodeMapPairs ps with
      | error e => simp only [he] at henc; cases henc
      | ok eps =>
        simp only [he] at henc
        cases henc
        have hkeys := encodeMapPairs_keys ps eps he
        have hsorted : eps.Pairwise (pairLe (α := List Char)) :=
          pairwise_pairLe_of_keys hkeys hsort
        have hsp : sortPairs eps = eps := List.Sorted.insertionSort_eq hsorted
        rw [hsp] at hf ⊢
        cases f with
        | zero => simp at hf
        | succ g =>
          have hsh : ('d' :: emitEnc eps ++ ['e']) ++ rest =
              'd' :: (emitEnc eps ++ 'e' :: rest) := by simp
          rw [hsh, decodeVal_dict_dispatch]
          have hszm : sizeOf ps < N := by
            have h2 : sizeOf (GoVal.vmap t ps) = 1 + sizeOf t + sizeOf ps := by simp
            omega
          have hargs : ∀ p ∈ ps, ∀ bv, encodeVal p.2 = .ok bv →
              ∀ (r : List Char) (f2 : Nat), bv.length ≤ f2 →
                decodeVal f2 (bv ++ r) = .ok (gval p.2, r) := by
            intro p hp bv hbv r f2 hlen2
            have h1 : sizeOf p < sizeOf ps := List.sizeOf_lt_of_mem hp
            have h2 : sizeOf p.2 < sizeOf p := by
              obtain ⟨k, v⟩ := p
              simp
            exact ih (sizeOf p.2) (by omega) p.2 le_rfl (htr2 p hp) bv hbv r f2 hlen2
          have hfuel : (emitEnc eps).length < g := by
            simp at hf
            omega
          rw [decodePairs_of_encodeMapPairs ps eps he hargs hkl hsort g rest true [] []
            (by intro h; exact absurd h (by decide)) (by intro q hq; simp at hq) hfuel]
          simp [gval]
    | vstruct fs hexp hpl hnd htr2 =>
      simp only [encodeVal] at henc
      cases he : encodeFieldVals fs with
      | error e => simp only [he] at henc; cases henc
      | ok evs =>
        simp only [he] at henc
        cases henc
        have hplc : ∀ q ∈ fs, q.1.exported = true ∧ plainTag q.1.tag :=
          fun q hq => ⟨hexp q hq, hpl q hq⟩
        have hvalid := structInfo_mem fs hplc
        have hpl' : ∀ d ∈ fs.map Prod.fst, d.exported = true ∧ plainTag d.tag := by
          intro d hd
          obtain ⟨q, hq, hqd⟩ := List.mem_map.1 hd
          exact hqd ▸ hplc q hq
        have hndt : ((fs.map Prod.fst).map FieldDecl.tag).Nodup := by
          simpa [List.map_map, Function.comp] using hnd
        have hinfo := structInfo_pairwise_lt (fs.map Prod.fst) hpl' hndt
        have hmparg : ∀ fi ∈ structInfoFields (fs.map Prod.fst),
            ∃ p : FieldDecl × GoVal, fs[fi.index]? = some p ∧
              encodeVal p.2 = .ok (evs.getD fi.index []) := by
          intro fi hfi
          obtain ⟨p, hp, htag, hpmem⟩ := hvalid fi hfi
          exact ⟨p, hp, encodeFieldVals_index fs evs he fi.index p hp (hexp p hpmem)⟩
        have hmp := encodeMapPairs_structVals fs evs _ hmparg
        have hkeys2 : (structVals fs (structInfoFields (fs.map Prod.fst))).map Prod.fst =
            (structInfoFields (fs.map Prod.fst)).map FieldInfo.bencodeTag :=
          structVals_map_fst fs _
        have hsort2 : (structVals fs (structInfoFields (fs.map Prod.fst))).Pairwise
            (fun a b => lexLt a.1 b.1 = true) :=
          pairwise_fst_of_map hkeys2 (List.pairwise_map.2 hinfo)
        have hkl2 : ∀ q ∈ structVals fs (structInfoFields (fs.map Prod.fst)),
            ((q.1.length : Int) ≤ int64Max) := by
          intro q hq
          obtain ⟨fi, hfi, hq1, _⟩ := mem_structVals fs _ q hq
          obtain ⟨p, hp, htag, hpmem⟩ := hvalid fi hfi
          rw [hq1, htag]
          exact (hpl p hpmem).2.2.2.2
        have hargs : ∀ q ∈ structVals fs (structInfoFields (fs.map Prod.fst)),
            ∀ bv, encodeVal q.2 = .ok bv →
              ∀ (r : List Char) (f2 : Nat), bv.length ≤ f2 →
                decodeVal f2 (bv ++ r) = .ok (gval q.2, r) := by
          intro q hq bv hbv r f2 hlen2
          obtain ⟨fi, hfi, hq1, hcase⟩ := mem_structVals fs _ q hq
          obtain ⟨p, hp, htag, hpmem⟩ := hvalid fi hfi
          rcases hcase with ⟨p', hp', hq2⟩ | ⟨hp', _⟩
          · rw [hp] at hp'
            obtain rfl : p = p' := by simpa using hp'
            rw [hq2] at hbv ⊢
            have h1 : sizeOf p < sizeOf fs := List.sizeOf_lt_of_mem hpmem
            have h2 : sizeOf p.2 < sizeOf p := by
              obtain ⟨d, v⟩ := p
              simp
            have h3 : sizeOf (GoVal.vstruct fs) = 1 + sizeOf fs := by simp
            exact ih (sizeOf p.2) (by omega) p.2 le_rfl (htr2 p hpmem) bv hbv r f2 hlen2
          · rw [hp] at hp'
            cases hp'
        cases f with
        | zero => simp at hf
        | succ g =>
          have hsh : ('d' :: emitInfo (structInfoFields (fs.map Prod.fst)) evs ++ ['e'])
              ++ rest =
              'd' :: (emitInfo (structInfoFields (fs.map Prod.fst)) evs ++ 'e' :: rest) := by
            simp
          rw [hsh, decodeVal_dict_dispatch, emitInfo_eq_emitEnc]
          have hfuel : (emitEnc ((structInfoFields (fs.map Prod.fst)).map
              fun fi => (fi.bencodeTag, evs.getD fi.index []))).length < g := by
            rw [emitInfo_eq_emitEnc] at hf
            simp only [List.length_append, List.length_cons, List.length_nil] at hf
            omega
          rw [decodePairs_of_encodeMapPairs _ _ hmp hargs hkl2 hsort2 g rest true [] []
            (by intro h; exact absurd h (by decide)) (by intro q hq; simp at hq) hfuel]
          simp [gval, gvalStructPairs_eq]

/-- The binder inverts the generic image on the round-trippable fragment:
binding a `Trippable` value's generic image into a fresh destination of
its own type yields the value back. -/
theorem bind_gval :
    ∀ (N : Nat) (v : GoVal), sizeOf v ≤ N → Trippable v →
      bindVal (typeOf v) (gval v) = .ok v := by
  intro N
  induction N using Nat.strong_induction_on with
  | _ N ih =>
    intro v hsz htr
    cases htr with
    | vint n hmin hmax => simp [typeOf, gval, bindVal]
    | vuint n hmax =>
      have h : ¬((n : Int) < 0) := by omega
      simp [typeOf, gval, bindVal, h]
    | vstr s hlen => simp [typeOf, gval, bindVal]
    | vlist t items hty htr2 =>
      simp only [typeOf, gval]
      have hszl : sizeOf items < N := by
        have h2 : sizeOf (GoVal.vlist t items) = 1 + sizeOf t + sizeOf items := by simp
        omega
      have hbind : ∀ x ∈ items, bindVal t (gval x) = .ok x := by
        intro x hx
        have h1 : sizeOf x < sizeOf items := List.sizeOf_lt_of_mem hx
        have h2 := ih (sizeOf x) (by omega) x le_rfl (htr2 x hx)
        rw [hty x hx] at h2
        exact h2
      simp only [bindVal]
      rw [bindList_roundtrip t items hty hbind 0]
    | vmap t ps hsort hkl hty htr2 =>
      simp only [typeOf, gval]
      have hszm : sizeOf ps < N := by
        have h2 : sizeOf (GoVal.vmap t ps) = 1 + sizeOf t + sizeOf ps := by simp
        omega
      have hbind : ∀ p ∈ ps, bindVal t (gval p.2) = .ok p.2 := by
        intro p hp
        have h1 : sizeOf p < sizeOf ps := List.sizeOf_lt_of_mem hp
        have h0 : sizeOf p.2 < sizeOf p := by
          obtain ⟨k, v2⟩ := p
          simp
        have h2 := ih (sizeOf p.2) (by omega) p.2 le_rfl (htr2 p hp)
        rw [hty p hp] at h2
        exact h2
      simp only [bindVal]
      rw [bindMapPairs_roundtrip t ps hbind]
    | vstruct fs hexp hpl hnd htr2 =>
      simp only [typeOf, gval]
      have hplc : ∀ q ∈ fs, q.1.exported = true ∧ plainTag q.1.tag :=
        fun q hq => ⟨hexp q hq, hpl q hq⟩
      have hcov := structInfo_covers fs hplc
      have hpl' : ∀ d ∈ fs.map Prod.fst, d.exported = true ∧ plainTag d.tag := by
        intro d hd
        obtain ⟨q, hq, hqd⟩ := List.mem_map.1 hd
        exact hqd ▸ hplc q hq
      have hndt : ((fs.map Prod.fst).map FieldDecl.tag).Nodup := by
        simpa [List.map_map, Function.comp] using hnd
      have hknd : ((gvalStructPairs fs (structInfoFields (fs.map Prod.fst))).map
          Prod.fst).Nodup := by
        rw [gvalStructPairs_eq, gvalPairs_map_fst, structVals_map_fst]
        exact structInfo_keys_nodup _ hpl' hndt
      have hfind : ∀ p ∈ fs,
          assocFind (gvalStructPairs fs (structInfoFields (fs.map Prod.fst))) p.1.tag =
            some (gval p.2) := by
        intro p hp
        obtain ⟨i, hilt, hival⟩ := List.mem_iff_getElem.1 hp
        have hpi : fs[i]? = some p := List.getElem?_eq_some_iff.2 ⟨hilt, hival⟩
        obtain ⟨fi, hfi, hidx, htag⟩ := hcov i p hpi
        have hmem2 : (p.1.tag, gval p.2) ∈
            gvalStructPairs fs (structInfoFields (fs.map Prod.fst)) := by
          rw [gvalStructPairs_map]
          refine List.mem_map.2 ⟨fi, hfi, ?_⟩
          rw [hidx, hpi, htag]
        exact assocFind_of_mem_nodup _ _ _ hmem2 hknd
      have hbindf : ∀ p ∈ fs, bindVal (typeOf p.2) (gval p.2) = .ok p.2 := by
        intro p hp
        have h1 : sizeOf p < sizeOf fs := List.sizeOf_lt_of_mem hp
        have h0 : sizeOf p.2 < sizeOf p := by
          obtain ⟨d, v2⟩ := p
          simp
        have h3 : sizeOf (GoVal.vstruct fs) = 1 + sizeOf fs := by simp
        exact ih (sizeOf p.2) (by omega) p.2 le_rfl (htr2 p hp)
      have htagne : ∀ p ∈ fs, p.1.tag ≠ [] := fun p hp => (hpl p hp).1
      simp only [bindVal]
      rw [populateStruct_roundtrip _ fs hexp htagne hfind hbindf]

/-! ## The encoder accepts every round-trippable value -/

theorem encodeItems_ok :
    ∀ (items : List GoVal), (∀ v ∈ items, ∃ b, encodeVal v = .ok b) →
      ∃ bs, encodeItems items = .ok bs := by
  intro items
  induction items with
  | nil => intro _; exact ⟨[], by simp [encodeItems]⟩
  | cons v vs ih =>
    intro h
    obtain ⟨b, hb⟩ := h v (by simp)
    obtain ⟨bs, hbs⟩ := ih (fun x hx => h x (by simp [hx]))
    exact ⟨b ++ bs, by simp only [encodeItems, hb, hbs]⟩

theorem encodeMapPairs_ok :
    ∀ (ps : List (List Char × GoVal)), (∀ p ∈ ps, ∃ b, encodeVal p.2 = .ok b) →
      ∃ eps, encodeMapPairs ps = .ok eps := by
  intro ps
  induction ps with
  | nil => intro _; exact ⟨[], by simp [encodeMapPairs]⟩
  | cons p rest ih =>
    intro h
    obtain ⟨k, v⟩ := p
    obtain ⟨b, hb⟩ := h (k, v) (by simp)
    obtain ⟨eps, heps⟩ := ih (fun x hx => h x (by simp [hx]))
    exact ⟨(k, b) :: eps, by simp only [encodeMapPairs, hb, heps]⟩

theorem encodeFieldVals_ok :
    ∀ (fs : List (FieldDecl × GoVal)), (∀ p ∈ fs, ∃ b, encodeVal p.2 = .ok b) →
      ∃ evs, encodeFieldVals fs = .ok evs := by
  intro fs
  induction fs with
  | nil => intro _; exact ⟨[], by simp [encodeFieldVals]⟩
  | cons p rest ih =>
    intro h
    obtain ⟨d, v⟩ := p
    obtain ⟨b, hb⟩ := h (d, v) (by simp)
    have hb2 : encodeVal v = .ok b := hb
    obtain ⟨evs, hevs⟩ := ih (fun x hx => h x (by simp [hx]))
    by_cases hd : d.exported = true
    · refine ⟨b :: evs, ?_⟩
      simp only [encodeFieldVals]
      rw [if_pos (by simp [hd])]
      simp only [hb2, hevs]
    · refine ⟨[] :: evs, ?_⟩
      simp only [encodeFieldVals]
      rw [if_neg (by simp [hd])]
      simp only [hevs]

theorem encode_ok :
    ∀ (N : Nat) (v : GoVal), sizeOf v ≤ N → Trippable v →
      ∃ bytes, encodeVal v = .ok bytes := by
  intro N
  induction N using Nat.strong_induction_on with
  | _ N ih =>
    intro v hsz htr
    cases htr with
    | vint n hmin hmax => exact ⟨'i' :: intDec n ++ ['e'], by simp [encodeVal]⟩
    | vuint n hmax => exact ⟨'i' :: natDec n ++ ['e'], by simp [encodeVal]⟩
    | vstr s hlen => exact ⟨encStr s, by simp [encodeVal]⟩
    | vlist t items hty htr2 =>
      have hszl : sizeOf items < N := by
        have h2 : sizeOf (GoVal.vlist t items) = 1 + sizeOf t + sizeOf items := by simp
        omega
      obtain ⟨bs, hbs⟩ := encodeItems_ok items (fun x hx =>
        ih (sizeOf x) (by have := List.sizeOf_lt_of_mem hx; omega) x le_rfl (htr2 x hx))
      exact ⟨'l' :: bs ++ ['e'], by simp only [encodeVal, hbs]⟩
    | vmap t ps hsort hkl hty htr2 =>
      have hszm : sizeOf ps < N := by
        have h2 : sizeOf (GoVal.vmap t ps) = 1 + sizeOf t + sizeOf ps := by simp
        omega
      obtain ⟨eps, heps⟩ := encodeMapPairs_ok ps (fun p hp => by
        have h1 : sizeOf p < sizeOf ps := List.sizeOf_lt_of_mem hp
        have h0 : sizeOf p.2 < sizeOf p := by
          obtain ⟨k, v2⟩ := p
          simp
        exact ih (sizeOf p.2) (by omega) p.2 le_rfl (htr2 p hp))
      exact ⟨'d' :: emitEnc (sortPairs eps) ++ ['e'], by simp only [encodeVal, heps]⟩
    | vstruct fs hexp hpl hnd htr2 =>
      have hszs : sizeOf fs < N := by
        have h3 : sizeOf (GoVal.vstruct fs) = 1 + sizeOf fs := by simp
        omega
      obtain ⟨evs, hevs⟩ := encodeFieldVals_ok fs (fun p hp => by
        have h1 : sizeOf p < sizeOf fs := List.sizeOf_lt_of_mem hp
        have h0 : sizeOf p.2 < sizeOf p := by
          obtain ⟨d, v2⟩ := p
          simp
        exact ih (sizeOf p.2) (by omega) p.2 le_rfl (htr2 p hp))
      exact ⟨'d' :: emitInfo (structInfoFields (fs.map Prod.fst)) evs ++ ['e'],
        by simp only [encodeVal, hevs]⟩

/-- C1 counterexample: the `[]byte` value `spam` is a supported typed
value (the encoder emits it as the string `4:spam`), yet unmarshalling
those bytes back into a destination of its own type fails with the
unmarshal type error: reflection sees a `[]byte` destination as a slice
of `uint8`, and the slice branch of `assignDecodedToValue` requires
`[]any` data, which a decoded string never is. -/
theorem c1_counterexample_bytes_value_fails_roundtrip :
    marshal (.vbytes ("spam".toList)) = .ok ("4:spam".toList) ∧
    unmarshalTyped (typeOf (.vbytes ("spam".toList))) ("4:spam".toList) =
      .error { ty := .umType } := by
  constructor
  · simp only [marshal, encodeVal]
    rfl
  · have ht : typeOf (.vbytes ("spam".toList)) = .tbytes := by simp [typeOf]
    rw [ht]
    have hd : decodeVal (("4:spam".toList).length + 1) ("4:spam".toList) =
        .ok (.str ("spam".toList), []) := rfl
    simp only [unmarshalTyped, hd]
    simp [bindVal]

/-- C1 (amended): restricted to the round-trippable fragment — `int64`-
ranged integers, strings, homogeneous slices, maps presented in strictly
ascending key order, and structs of exported fields with plain distinct
tags (no `[]byte` leaves, no `any` holes) — `Marshal` succeeds and
`Unmarshal` of its output into a fresh destination of the value's own
type reproduces the value field-for-field. -/
theorem c1_amended_roundtrip_on_trippable_values :
    ∀ v : GoVal, Trippable v →
      ∃ bytes, marshal v = .ok bytes ∧
        unmarshalTyped (typeOf v) bytes = .ok v := by
  intro v htr
  obtain ⟨bytes, hbytes⟩ := encode_ok (sizeOf v) v le_rfl htr
  refine ⟨bytes, hbytes, ?_⟩
  unfold unmarshalTyped
  have hparse := parse_encodeVal (sizeOf v) v le_rfl htr bytes hbytes []
    (bytes.length + 1) (by omega)
  rw [List.append_nil] at hparse
  simp only [hparse]
  exact bind_gval (sizeOf v) v le_rfl htr

/-- C1 witness: the amended round trip at a concrete two-field struct
(`name`-tagged string, `value`-tagged integer). -/
theorem c1_amended_roundtrip_on_trippable_values_witness :
    ∃ bytes,
      marshal (.vstruct [(⟨"Name".toList, "name".toList, true⟩, .vstr ("test".toList)),
        (⟨"Value".toList, "value".toList, true⟩, .vint 123)]) = .ok bytes ∧
      unmarshalTyped
        (typeOf (.vstruct [(⟨"Name".toList, "name".toList, true⟩, .vstr ("test".toList)),
          (⟨"Value".toList, "value".toList, true⟩, .vint 123)])) bytes =
        .ok (.vstruct [(⟨"Name".toList, "name".toList, true⟩, .vstr ("test".toList)),
          (⟨"Value".toList, "value".toList, true⟩, .vint 123)]) :=
  c1_amended_roundtrip_on_trippable_values _ (by
    refine Trippable.vstruct _ ?_ ?_ ?_ ?_
    · decide
    · intro q hq
      fin_cases hq <;> exact ⟨by decide, by decide, by decide, by decide, by decide⟩
    · decide
    · intro q hq
      fin_cases hq
      · exact Trippable.vstr _ (by decide)
      · exact Trippable.vint _ (by decide) (by decide))

/-- C9 witness: a nonempty input (`x`) whose error is not the null-root
sentinel. -/
theorem c9_null_root_vs_unexpected_eof_witness :
    ({ ty := .synTok } : BError) ≠ ErrNullRootValue :=
  c9_null_root_vs_unexpected_eof.2.1 ("x".toList) { ty := .synTok } (by simp) rfl

/-- C5 witness: the amended statement at the zero-valued `required`
record. -/
theorem c5_amended_every_cached_field_emitted_witness :
    encodeVal (.vstruct
      [({ name := "Value".toList, tag := "value,required".toList }, .vint 0)]) =
      .ok ('d' :: (emitInfo (structInfoFields
        [{ name := "Value".toList, tag := "value,required".toList }]) ["i0e".toList] ++ ['e']))
    ∧ ∀ fi ∈ structInfoFields [{ name := "Value".toList, tag := "value,required".toList }],
        ∃ pre post, emitInfo
            (structInfoFields [{ name := "Value".toList, tag := "value,required".toList }])
            ["i0e".toList] =
          pre ++ encStr fi.bencodeTag ++ ["i0e".toList].getD fi.index [] ++ post :=
  c5_amended_every_cached_field_emitted
    [({ name := "Value".toList, tag := "value,required".toList }, .vint 0)]
    ["i0e".toList]
    (by simp [encodeFieldVals, encodeVal, intDec, natDec, natDecAux, decDigit, resolvedTag,
      parseTagValue, cutComma, readString, trimSpace, isSpaceCh, splitComma, splitCommaAux])

end Bencode

section DecoderSmoke

open Bencode

example : decodeTop ("4:spam".toList) = .ok (.str ("spam".toList)) := rfl

example : decodeTop ("i42e".toList) = .ok (.int 42) := rfl

example : decodeTop ("i-42e".toList) = .ok (.int (-42)) := rfl

example : decodeTop ("l4:spam4:eggse".toList) =
    .ok (.list [.str ("spam".toList), .str ("eggs".toList)]) := rfl

example : decodeTop ("d3:baz3:qux3:foo3:bare".toList) =
    .ok (.dict [("baz".toList, .str ("qux".toList)), ("foo".toList, .str ("bar".toList))]) := rfl

example : decodeTop [] = .error ErrNullRootValue := rfl

example : decodeTop ("i01e".toList) = .error { ty := .synInt } := rfl

example : decodeTop ("i-0e".toList) = .error { ty := .synInt } := rfl

example : decodeTop ("ie".toList) = .error { ty := .synInt } := rfl

example : decodeTop ("04:spam".toList) = .ok (.str ("spam".toList)) := rfl

example : decodeTop ("d3:fooi42e3:fooi43ee".toList) =
    .error { ty := .stKeyDup, field := "foo".toList, wraps := some .stKeyDup } := rfl

example : decodeTop ("d3:foo3:bar3:baz3:quxe".toList) =
    .error { ty := .stKeySort, field := "baz".toList, wraps := some .stKeySort } := rfl

example : decodeTop ("l4:spamli42e3:egg".toList) =
    .error { ty := .synEOF, wraps := some .synEOF } := rfl

example : decodeTop ("x".toList) = .error { ty := .synTok } := rfl

example : decodeTop ("10:spam".toList) = .error { ty := .synEOF, wraps := some .synEOF } := rfl

example : encodeVal (.vstr ("hello".toList)) = .ok ("5:hello".toList) := by
  simp [encodeVal, encStr, natDec, natDecAux, decDigit]

example : encodeVal (.vint 42) = .ok ("i42e".toList) := by
  simp [encodeVal, intDec, natDec, natDecAux, decDigit]

example : encodeVal (.vint (-42)) = .ok ("i-42e".toList) := by
  simp [encodeVal, intDec, natDec, natDecAux, decDigit]

example : encodeVal (.vlist .tstr [.vstr ("foo".toList), .vstr ("bar".toList)]) =
    .ok ("l3:foo3:bare".toList) := by
  simp [encodeVal, encodeItems, encStr, natDec, natDecAux, decDigit]

example :
    encodeVal (.vmap .tany
      [("key1".toList, .vstr ("value1".toList)), ("key2".toList, .vint 42)]) =
    .ok ("d4:key16:value14:key2i42ee".toList) := by
  simp [encodeVal, encodeMapPairs, sortPairs, emitEnc, encStr, natDec, natDecAux, decDigit,
    intDec, pairLe, strLe, lexLt]

example :
    encodeVal (.vstruct
      [({ name := "Name".toList, tag := "name".toList }, .vstr ("test".toList)),
       ({ name := "Value".toList, tag := "value".toList }, .vint 123)]) =
    .ok ("d4:name4:test5:valuei123ee".toList) := by
  simp [encodeVal, encodeFieldVals, structInfoFields, collectFields, parseTagValue, cutComma,
    readString, trimSpace, isSpaceCh, splitComma, resolvedTag, tagLe, strLe, lexLt,
    emitInfo, encStr, natDec, natDecAux, decDigit, intDec]

example :
    encodeVal (.vstruct
      [({ name := "Name".toList, tag := "name".toList }, .vstr ("test".toList)),
       ({ name := "Value".toList, tag := [] }, .vint 123)]) =
    .ok ("d5:Valuei123e4:name4:teste".toList) := by
  simp [encodeVal, encodeFieldVals, structInfoFields, collectFields, parseTagValue, cutComma,
    readString, trimSpace, isSpaceCh, splitComma, resolvedTag, tagLe, strLe, lexLt,
    emitInfo, encStr, natDec, natDecAux, decDigit, intDec]

example :
    unmarshalTyped
      (.tstruct
        [({ name := "Name".toList, tag := "name".toList }, .tstr),
         ({ name := "Value".toList, tag := "value".toList }, .tint)])
      ("d4:name4:Test5:valuei42ee".toList) =
    .ok (.vstruct
      [({ name := "Name".toList, tag := "name".toList }, .vstr ("Test".toList)),
       ({ name := "Value".toList, tag := "value".toList }, .vint 42)]) := by
  have hd :
      decodeVal (("d4:name4:Test5:valuei42ee".toList).length + 1)
        ("d4:name4:Test5:valuei42ee".toList) =
      .ok (.dict [("name".toList, .str ("Test".toList)), ("value".toList, .int 42)], []) := rfl
  simp only [unmarshalTyped, hd]
  simp [bindVal, populateStruct, assocFind]

example : unmarshalTyped .tbytes ("4:spam".toList) = .error { ty := .umType } := by
  have hd : decodeVal (("4:spam".toList).length + 1) ("4:spam".toList) =
      .ok (.str ("spam".toList), []) := rfl
  simp only [unmarshalTyped, hd]
  simp [bindVal]

example :
    populateStructSpec
      [({ name := "Name".toList, tag := "name,required".toList }, .tstr),
       ({ name := "City".toList, tag := "city".toList }, .tstr)]
      [] =
    .error { ty := .umRequired, field := "name".toList } := by
  have hdf :
      defaultFields
        [({ name := "Name".toList, tag := "name,required".toList }, .tstr),
         ({ name := "City".toList, tag := "city".toList }, .tstr)] =
      [({ name := "Name".toList, tag := "name,required".toList }, .vstr []),
       ({ name := "City".toList, tag := "city".toList }, .vstr [])] := by
    simp [defaultFields, defaultVal]
  simp only [populateStructSpec, hdf]
  rfl

example :
    populateStructSpec
      [({ name := "Name".toList, tag := "name,required".toList }, .tstr),
       ({ name := "City".toList, tag := "city".toList }, .tstr)]
      [("name".toList, .str ("John".toList))] =
    .ok [({ name := "Name".toList, tag := "name,required".toList }, .vstr ("John".toList)),
         ({ name := "City".toList, tag := "city".toList }, .vstr [])] := by
  have hdf :
      defaultFields
        [({ name := "Name".toList, tag := "name,required".toList }, .tstr),
         ({ name := "City".toList, tag := "city".toList }, .tstr)] =
      [({ name := "Name".toList, tag := "name,required".toList }, .vstr []),
       ({ name := "City".toList, tag := "city".toList }, .vstr [])] := by
    simp [defaultFields, defaultVal]
  have hb : bindVal .tstr (.str ['J', 'o', 'h', 'n']) = .ok (.vstr ['J', 'o', 'h', 'n']) := by
    simp [bindVal]
  simp only [populateStructSpec, hdf]
  simp [populateSpecLoop, structInfoFields, collectFields, parseTagValue, cutComma,
    readString, trimSpace, isSpaceCh, splitComma, splitCommaAux, assocFind, setVal, hb,
    tagLe, strLe, lexLt]

end DecoderSmoke
